import Mathlib

/-!
Verification of the OSPF-style link-state routing core of EasyTier
(`easytier/src/peers/peer_ospf_route.rs`), as a shallow embedding.

Machine integers are modelled as `Nat`/`Int` (no claim depends on 32-bit
wrap-around of versions or peer ids).  `SystemTime` is modelled as a `Nat`
wall-clock passed explicitly where the source calls `SystemTime::now()`.
`DashMap`s and `BTreeSet`s are modelled as association lists and lists; the
`entry(..).and_modify(..).or_insert(..)` idiom modifies the first matching
entry or appends, which coincides with the `DashMap` semantics because its
keys are unique.  Rust `panic!` sites are modelled as explicit outcomes
(`CheckResult.panicMyIdDuplicated`) or `Option` (out-of-bounds `Vec`
indexing).
-/

set_option autoImplicit false

namespace EasyTier

abbrev PeerId := Nat

abbrev Version := Nat

/-- `RoutePeerInfo` from the source: the descriptor a peer publishes about
itself.  `inst_id` (a UUID) is modelled as a `Nat`, `ipv4_addr` as
`Option Nat`, `last_update` (a `SystemTime`) as a `Nat`. -/
structure RoutePeerInfo where
  peer_id : PeerId
  inst_id : Nat
  cost : Nat
  ipv4_addr : Option Nat
  proxy_cidrs : List String
  hostname : Option String
  udp_stun_info : Int
  last_update : Nat
  version : Version
deriving DecidableEq, Repr

/-- `RoutePeerInfo::new()` — the placeholder descriptor (version 0).  The
source sets `last_update` to `SystemTime::now()`; the current time is passed
explicitly. -/
def RoutePeerInfo.new (now : Nat) : RoutePeerInfo where
  peer_id := 0
  inst_id := 0
  cost := 0
  ipv4_addr := none
  proxy_cidrs := []
  hostname := none
  udp_stun_info := 0
  last_update := now
  version := 0

/-- First-match lookup in an association list (the `DashMap::get` model). -/
def lookupA {α β : Type} [DecidableEq α] (m : List (α × β)) (k : α) :
    Option β :=
  (m.find? (fun p => decide (p.1 = k))).map (fun p => p.2)

/-- The `DashMap::entry(k).and_modify(f).or_insert(d)` idiom: modify the
first entry with key `k`, or append `(k, d)` when `k` is absent. -/
def updateEntryA {α β : Type} [DecidableEq α] (k : α) (f : β → β) (d : β) :
    List (α × β) → List (α × β)
  | [] => [(k, d)]
  | (k', v) :: rest =>
    if k' = k then (k', f v) :: rest else (k', v) :: updateEntryA k f d rest

/-- `DashMap::insert` (overwrite or append). -/
def insertA {α β : Type} [DecidableEq α] (k : α) (v : β) (m : List (α × β)) :
    List (α × β) :=
  updateEntryA k (fun _ => v) v m

/-! ## SyncedRouteInfo: the synchronized route database -/

/-- The outcome of `check_duplicate_peer_id`: success, the fatal
`panic!("my peer id is duplicated")`, or the `Error::DuplicatePeerId`
rejection. -/
inductive CheckResult where
  | ok
  | panicMyIdDuplicated
  | errDuplicatePeerId
deriving DecidableEq, Repr

/-- The descriptor half of `SyncedRouteInfo`: `peer_infos: DashMap<PeerId,
RoutePeerInfo>`. -/
abbrev PeerInfoMap := List (PeerId × RoutePeerInfo)

/-- The adjacency half of `SyncedRouteInfo`: `conn_map: DashMap<PeerId,
(BTreeSet<PeerId>, AtomicVersion)>`. -/
abbrev ConnMap := List (PeerId × (List PeerId × Version))

/-- `SyncedRouteInfo`: the process-local synchronized route database. -/
structure SyncedRouteInfo where
  peer_infos : PeerInfoMap
  conn_map : ConnMap
deriving DecidableEq, Repr

/-- `SyncedRouteInfo::get_connected_peers`. -/
def SyncedRouteInfo.get_connected_peers (synced : SyncedRouteInfo)
    (peer_id : PeerId) : Option (List PeerId) :=
  (lookupA synced.conn_map peer_id).map (fun x => x.1)

/-- `SyncedRouteInfo::get_peer_info_version_with_default`: the stored version
of a peer id, an absent id counting as version 0. -/
def get_peer_info_version_with_default (m : PeerInfoMap) (p : PeerId) :
    Version :=
  ((lookupA m p).map (fun x => x.version)).getD 0

/-- `SyncedRouteInfo::check_duplicate_peer_id`.  The source iterates the
batch; for each element it first panics if the element claims `my_peer_id`
with a version above the stored one, then rejects the batch with
`DuplicatePeerId` if the element claims `dst_peer_id` with a version below
the stored one. -/
def check_duplicate_peer_id (my_peer_id dst_peer_id : PeerId)
    (m : PeerInfoMap) : List RoutePeerInfo → CheckResult
  | [] => .ok
  | info :: rest =>
    if info.peer_id = my_peer_id ∧
        get_peer_info_version_with_default m info.peer_id < info.version then
      .panicMyIdDuplicated
    else if info.peer_id = dst_peer_id ∧
        info.version < get_peer_info_version_with_default m info.peer_id then
      .errDuplicatePeerId
    else
      check_duplicate_peer_id my_peer_id dst_peer_id m rest

/-- One step of the loop body of `SyncedRouteInfo::update_peer_infos`: set
`last_update` to the local current time, then
`entry(peer_id).and_modify(replace if strictly newer).or_insert(it)`. -/
def applyOneInfo (now : Nat) (m : PeerInfoMap) (info : RoutePeerInfo) :
    PeerInfoMap :=
  updateEntryA info.peer_id
    (fun old_entry =>
      if old_entry.version < info.version then { info with last_update := now }
      else old_entry)
    { info with last_update := now } m

/-- `SyncedRouteInfo::update_peer_infos`: run the duplicate-id check, then
apply every element of the batch.  A non-`ok` check outcome leaves the map
untouched (the source returns or panics before its loop runs). -/
def update_peer_infos (my_peer_id dst_peer_id : PeerId) (now : Nat)
    (m : PeerInfoMap) (peer_infos : List RoutePeerInfo) :
    CheckResult × PeerInfoMap :=
  match check_duplicate_peer_id my_peer_id dst_peer_id m peer_infos with
  | .ok => (.ok, peer_infos.foldl (applyOneInfo now) m)
  | r => (r, m)

/-- The insert-or-update rule as the (amended) spec sentence states it: the
stored descriptor for the element's id is replaced iff the incoming version
is strictly greater than the stored version, except that an id absent from
the DB is always inserted (even with version 0); on acceptance the stored
`last_update` is set to the local current time; otherwise the stored entry is
unchanged. -/
def specApplyDescriptor (now : Nat) (m : PeerInfoMap)
    (info : RoutePeerInfo) : PeerInfoMap :=
  match lookupA m info.peer_id with
  | none => (info.peer_id, { info with last_update := now }) :: m
  | some old =>
    if old.version < info.version then
      updateEntryA info.peer_id (fun _ => { info with last_update := now })
        { info with last_update := now } m
    else m

/-- A finite sequence of `update_peer_infos` calls, each call given as
`((my_peer_id, dst_peer_id), now, batch)`, applied to a descriptor map. -/
def runDescriptorCalls
    (calls : List ((PeerId × PeerId) × Nat × List RoutePeerInfo))
    (m : PeerInfoMap) : PeerInfoMap :=
  calls.foldl (fun m c => (update_peer_infos c.1.1 c.1.2 c.2.1 m c.2.2).2) m

/-- `m'` refines `m` per key: every stored version is at least the old one,
and an entry whose version did not move is the very same entry (a stored
descriptor is never replaced by one of equal or lower version). -/
def StepsUp (m m' : PeerInfoMap) : Prop :=
  ∀ p : PeerId,
    get_peer_info_version_with_default m p ≤
      get_peer_info_version_with_default m' p ∧
    ∀ old, lookupA m p = some old →
      ∃ new, lookupA m' p = some new ∧ old.version ≤ new.version ∧
        (new.version = old.version → new = old)

/-! ## Self-descriptor refresh (`RoutePeerInfo::update_self`) -/

/-- The local context consulted by `update_self` (`ArcGlobalCtx`): instance
UUID, local IPv4, proxy CIDRs, optional VPN portal CIDR, hostname and the
STUN-probed NAT type. -/
structure GlobalCtx where
  inst_id : Nat
  ipv4 : Option Nat
  proxy_cidrs : List String
  vpn_portal_cidr : Option String
  hostname : String
  udp_stun_info : Int
deriving DecidableEq, Repr

/-- `RoutePeerInfo::update_self`: rebuild every content field from the local
context, keeping `last_update` and `version`; if the rebuilt record differs
from the stored one or the stored `last_update` is more than
`UPDATE_PEER_INFO_PERIOD` (3600 s) old — with a clock regression
(`elapsed()` returning `Err`) also counting as stale — set `last_update` to
now and increment the version. -/
def RoutePeerInfo.update_self (self : RoutePeerInfo) (my_peer_id : PeerId)
    (ctx : GlobalCtx) (now : Nat) : RoutePeerInfo :=
  let new : RoutePeerInfo :=
    { peer_id := my_peer_id
      inst_id := ctx.inst_id
      cost := 0
      ipv4_addr := ctx.ipv4
      proxy_cidrs := ctx.proxy_cidrs ++ ctx.vpn_portal_cidr.toList
      hostname := some ctx.hostname
      udp_stun_info := ctx.udp_stun_info
      last_update := self.last_update
      version := self.version }
  let need_update_periodically : Bool :=
    if self.last_update ≤ now then decide (3600 < now - self.last_update)
    else true
  if new ≠ self ∨ need_update_periodically = true then
    { new with last_update := now, version := new.version + 1 }
  else new

/-- The content-rebuilt record of `update_self`: every content field taken
from the local context, `last_update` and `version` kept from the stored
record (the source's `new` before the bump decision). -/
def refreshContent (self : RoutePeerInfo) (my_peer_id : PeerId)
    (ctx : GlobalCtx) : RoutePeerInfo where
  peer_id := my_peer_id
  inst_id := ctx.inst_id
  cost := 0
  ipv4_addr := ctx.ipv4
  proxy_cidrs := ctx.proxy_cidrs ++ ctx.vpn_portal_cidr.toList
  hostname := some ctx.hostname
  udp_stun_info := ctx.udp_stun_info
  last_update := self.last_update
  version := self.version

/-- The staleness condition of `update_self`: the stored `last_update` is
more than 3600 s in the past, or lies in the future of `now` (the
`elapsed()`-returns-`Err` branch). -/
def refreshStale (self : RoutePeerInfo) (now : Nat) : Prop :=
  (self.last_update ≤ now ∧ 3600 < now - self.last_update) ∨
    now < self.last_update

instance (self : RoutePeerInfo) (now : Nat) :
    Decidable (refreshStale self now) := by
  unfold refreshStale
  exact inferInstance

/-- The bumped record of `update_self`: the content rebuild with
`last_update` set to now and the version incremented. -/
def refreshBumped (self : RoutePeerInfo) (my_peer_id : PeerId)
    (ctx : GlobalCtx) (now : Nat) : RoutePeerInfo :=
  { refreshContent self my_peer_id ctx with
      last_update := now, version := self.version + 1 }

/-- `SyncedRouteInfo::update_my_peer_info`:
`entry(my).or_insert(RoutePeerInfo::new())`, update it via `update_self`,
store the result back, and report whether the version advanced. -/
def SyncedRouteInfo.update_my_peer_info (synced : SyncedRouteInfo)
    (my_peer_id : PeerId) (ctx : GlobalCtx) (now : Nat) :
    SyncedRouteInfo × Bool :=
  let old := (lookupA synced.peer_infos my_peer_id).getD (RoutePeerInfo.new now)
  let new := old.update_self my_peer_id ctx now
  ({ synced with peer_infos := insertA my_peer_id new synced.peer_infos },
    decide (new.version ≠ old.version))

/-! ## The route-table builder -/

/-- Modelled from the spec: `NextHopPolicy` is declared in `route_trait.rs`,
which is not among the provided sources; the spec fixes it as the two-element
policy set {LeastHop, LeastCost}. -/
inductive NextHopPolicy where
  | LeastHop
  | LeastCost
deriving DecidableEq, Repr

/-- The transient `PeerGraph` built inside a rebuild: a node list plus
adjacency and edge-cost functions (`petgraph::Graph` with `PeerId` node
weights and `i32` edge weights).  `adj a b` holds exactly when the built
graph has the edge `a → b`. -/
structure PeerGraph where
  nodes : List PeerId
  adj : PeerId → PeerId → Bool
  cost : PeerId → PeerId → Int

/-- Last node of a path (paths are nonempty node lists). -/
def pathLast (p : List PeerId) : PeerId := p.getLastD 0

/-- All simple paths that start at `s`, use only graph edges, visit only
graph nodes after `s`, and have exactly `n` edges.  This is the model of
`petgraph::algo::all_simple_paths` restricted to one length (the source
passes `min_intermediate_nodes = max_intermediate_nodes = hops - 1`); the
enumeration order is this enumerator's. -/
def simplePathsLen (g : PeerGraph) (s : PeerId) : Nat → List (List PeerId)
  | 0 => [[s]]
  | n + 1 =>
    (simplePathsLen g s n).flatMap (fun p =>
      (g.nodes.filter (fun b => g.adj (pathLast p) b && !(p.contains b))).map
        (fun b => p ++ [b]))

/-- The simple paths from `s` to `t` with exactly `n` edges. -/
def pathsTo (g : PeerGraph) (s t : PeerId) (n : Nat) : List (List PeerId) :=
  (simplePathsLen g s n).filter (fun p => decide (pathLast p = t))

/-- Least `n` below the bound satisfying `P`. -/
def leastUpTo (P : Nat → Bool) : Nat → Option Nat
  | 0 => none
  | n + 1 =>
    match leastUpTo P n with
    | some m => some m
    | none => if P n then some n else none

/-- The unweighted (all edge weights 1) shortest-path distance from `s` to
`t`: the least number of edges of any simple path between them.  This models
the entry for `t` in the result of `petgraph::algo::dijkstra(graph, s, None,
|_| 1)`: with unit weights the Dijkstra distance is the minimum walk length,
which equals the minimum simple-path length. -/
def hopDist (g : PeerGraph) (s t : PeerId) : Option Nat :=
  leastUpTo (fun n => !(pathsTo g s t n).isEmpty) (g.nodes.length + 1)

/-- Total weighted cost of a path: the sum of `cost_calc.calculate_cost`
over consecutive pairs. -/
def pathCost (g : PeerGraph) : List PeerId → Int
  | a :: b :: rest => g.cost a b + pathCost g (b :: rest)
  | _ => 0

/-- The path-selection fold of `gen_next_hop_map_with_least_hop`: starting
from `min_cost = i32::MAX` (modelled by the `none` accumulator) it keeps the
scanned path whenever its cost is `≤` the best so far, so ties go to the
last path scanned. -/
def chooseMinLast (g : PeerGraph) (paths : List (List PeerId)) :
    Option (Int × List PeerId) :=
  paths.foldl
    (fun acc p =>
      match acc with
      | none => some (pathCost g p, p)
      | some (mc, mp) =>
        if pathCost g p ≤ mc then some (pathCost g p, p) else some (mc, mp))
    none

/-- The loop body of `gen_next_hop_map_with_least_hop` for one destination:
skip unreachable destinations and the local node itself (Dijkstra cost 0),
otherwise enumerate the simple paths with exactly `hops` edges, choose the
weighted-least one (ties to the last scanned), and record
`(destination, (second node of that path, hops))`. -/
def least_hop_entry (g : PeerGraph) (my_peer_id t : PeerId) :
    Option (PeerId × (PeerId × Int)) :=
  match hopDist g my_peer_id t with
  | none => none
  | some 0 => none
  | some hops =>
    match chooseMinLast g (pathsTo g my_peer_id t hops) with
    | none => none
    | some (_, min_path) => some (t, (min_path.getD 1 0, (hops : Int)))

/-- `RouteTable::gen_next_hop_map_with_least_hop`: for every destination at
Dijkstra hop distance `hops ≠ 0`, the `least_hop_entry`. -/
def gen_next_hop_map_with_least_hop (g : PeerGraph) (my_peer_id : PeerId) :
    List (PeerId × (PeerId × Int)) :=
  g.nodes.filterMap (least_hop_entry g my_peer_id)

/-- All simple paths from `s` to `t` of any length. -/
def allSimplePathsTo (g : PeerGraph) (s t : PeerId) : List (List PeerId) :=
  (List.range (g.nodes.length + 1)).flatMap (fun n => pathsTo g s t n)

/-- First-scanned minimum-cost path (strict comparison). -/
def chooseMinFirst (g : PeerGraph) (paths : List (List PeerId)) :
    Option (Int × List PeerId) :=
  paths.foldl
    (fun acc p =>
      match acc with
      | none => some (pathCost g p, p)
      | some (mc, mp) =>
        if pathCost g p < mc then some (pathCost g p, p) else some (mc, mp))
    none

/-- `RouteTable::gen_next_hop_map_with_least_cost`: models
`petgraph::algo::astar` (zero heuristic, edge weights) by choosing a
minimum-weight simple path per destination; which minimum-cost path astar
returns on ties is unspecified, and no claim depends on it. -/
def gen_next_hop_map_with_least_cost (g : PeerGraph) (my_peer_id : PeerId) :
    List (PeerId × (PeerId × Int)) :=
  g.nodes.filterMap (fun t =>
    if t = my_peer_id then none
    else
      match chooseMinFirst g (allSimplePathsTo g my_peer_id t) with
      | none => none
      | some (c, path) => some (t, (path.getD 1 0, c)))

/-- `RouteTable::build_peer_graph_from_synced_info`: node per listed peer,
edge `a → b` with weight `cost_calc(a, b)` iff `a`'s stored adjacency set
contains `b` and both ends are listed peers. -/
def build_peer_graph_from_synced_info (peers : List PeerId)
    (synced : SyncedRouteInfo) (costf : PeerId → PeerId → Int) : PeerGraph where
  nodes := peers
  adj := fun a b =>
    decide (a ∈ peers) && decide (b ∈ peers) &&
      ((synced.get_connected_peers a).getD []).contains b
  cost := costf

/-- `RouteTable`: descriptor snapshot, next-hop map, IPv4 index and CIDR
index.  CIDR strings are kept unparsed (`cidr.parse().unwrap()` is modelled
as the identity on the string; no claim depends on CIDR parsing). -/
structure RouteTable where
  peer_infos : PeerInfoMap
  next_hop_map : List (PeerId × (PeerId × Int))
  ipv4_peer_id_map : List (Nat × PeerId)
  cidr_peer_id_map : List (String × PeerId)
deriving DecidableEq, Repr

/-- `RouteTable::peer_reachable`: the next-hop map has an entry. -/
def RouteTable.peer_reachable (rt : RouteTable) (peer_id : PeerId) : Bool :=
  (lookupA rt.next_hop_map peer_id).isSome

/-- `RouteTable::build_from_synced_info`.  The descriptor snapshot is
rebuilt from the version-≠-0 descriptors; when that snapshot is empty the
function returns at once, leaving the next-hop, IPv4 and CIDR tables at
their previous contents.  Otherwise the next-hop map is rebuilt (local peer
mapping to itself with cost 0) under the requested policy and the IPv4/CIDR
indexes are rebuilt from the reachable descriptors. -/
def RouteTable.build_from_synced_info (rt : RouteTable) (my_peer_id : PeerId)
    (synced : SyncedRouteInfo) (policy : NextHopPolicy)
    (costf : PeerId → PeerId → Int) : RouteTable :=
  let filtered := synced.peer_infos.filter (fun kv => decide (kv.2.version ≠ 0))
  if filtered.isEmpty then { rt with peer_infos := filtered }
  else
    let g := build_peer_graph_from_synced_info (filtered.map (fun kv => kv.1))
      synced costf
    let gen :=
      match policy with
      | .LeastHop => gen_next_hop_map_with_least_hop g my_peer_id
      | .LeastCost => gen_next_hop_map_with_least_cost g my_peer_id
    let nhm := gen.foldl (fun m kv => insertA kv.1 kv.2 m)
      [(my_peer_id, (my_peer_id, 0))]
    let reach := fun p => (lookupA nhm p).isSome
    let ipv4 := filtered.foldl
      (fun m kv =>
        if reach kv.1 then
          match kv.2.ipv4_addr with
          | some a => insertA a kv.1 m
          | none => m
        else m) []
    let cidr := filtered.foldl
      (fun m kv =>
        if reach kv.1 then
          kv.2.proxy_cidrs.foldl (fun m c => insertA c kv.1 m) m
        else m) []
    { peer_infos := filtered
      next_hop_map := nhm
      ipv4_peer_id_map := ipv4
      cidr_peer_id_map := cidr }

/-! ## Sync sessions and delta construction -/

/-- The part of `SyncRouteSession` that `build_route_info` consults: the
neighbor's id and its per-peer descriptor high-water versions. -/
structure SyncRouteSession where
  dst_peer_id : PeerId
  dst_saved_peer_info_versions : List (PeerId × Version)
deriving DecidableEq, Repr

/-- `SyncRouteSession::check_saved_peer_info_update_to_date`: true if the
version is 0, or the peer is the neighbor itself, or the saved high-water
version for the peer is at least the given version (a missing entry counts
as not up to date). -/
def SyncRouteSession.check_saved_peer_info_update_to_date
    (session : SyncRouteSession) (peer_id : PeerId) (version : Version) :
    Bool :=
  if version = 0 ∨ peer_id = session.dst_peer_id then true
  else
    ((lookupA session.dst_saved_peer_info_versions peer_id).map
      (fun v => decide (version ≤ v))).getD false

/-- `PeerRouteServiceImpl::build_route_info`: collect the stored descriptors
that are not up to date for the session and whose key is reachable in the
local route table; return `none` when the collection is empty. -/
def build_route_info (synced : SyncedRouteInfo) (rt : RouteTable)
    (session : SyncRouteSession) : Option (List RoutePeerInfo) :=
  let route_infos := synced.peer_infos.filterMap (fun kv =>
    if session.check_saved_peer_info_update_to_date kv.2.peer_id
        kv.2.version then none
    else if !(rt.peer_reachable kv.1) then none
    else some kv.2)
  if route_infos.isEmpty then none else some route_infos

/-! ## The adjacency bitmap -/

/-- `RouteConnBitmap`: ordered `(peer_id, version)` labels plus the packed
N×N bit matrix (bytes modelled as `Nat`s kept below 256). -/
structure RouteConnBitmap where
  peer_ids : List (PeerId × Version)
  bitmap : List Nat
deriving DecidableEq, Repr

/-- `RouteConnBitmap::get_bit`: read bit `idx % 8` (little-endian in the
byte) of byte `idx / 8`.  The source indexes the byte vector unchecked and
panics out of bounds; the panic is modelled as `none`. -/
def RouteConnBitmap.get_bit? (bm : RouteConnBitmap) (idx : Nat) :
    Option Bool :=
  (bm.bitmap.get? (idx / 8)).map
    (fun byte => decide ((byte >>> (idx % 8)) &&& 1 = 1))

/-- The decoding loop of `RouteConnBitmap::get_connected_peers` over an
explicit enumerated label list; `none` as soon as any bit access is out of
bounds. -/
def collectRow (bm : RouteConnBitmap) (peer_idx : Nat) :
    List (Nat × (PeerId × Version)) → Option (List PeerId)
  | [] => some []
  | (idx, (pid, _)) :: rest =>
    match bm.get_bit? (peer_idx * bm.peer_ids.length + idx),
        collectRow bm peer_idx rest with
    | some b, some l => some (if b then pid :: l else l)
    | _, _ => none

/-- `RouteConnBitmap::get_connected_peers`: decode row `peer_idx` into the
set of column peers whose bit is 1 (`none` when a bit access would panic). -/
def RouteConnBitmap.get_connected_peers? (bm : RouteConnBitmap)
    (peer_idx : Nat) : Option (List PeerId) :=
  collectRow bm peer_idx bm.peer_ids.enum

/-- `bitmap[bit_idx / 8] |= 1 << (bit_idx % 8)`. -/
def setBit (bs : List Nat) (idx : Nat) : List Nat :=
  bs.set (idx / 8) ((bs.getD (idx / 8) 0) ||| (1 <<< (idx % 8)))

/-- Bit `idx` of a byte vector (0 when out of range). -/
def bitAt (bs : List Nat) (idx : Nat) : Bool :=
  (bs.getD (idx / 8) 0).testBit (idx % 8)

/-- The nested row/column loop of the bitmap assembly: for every row element
and column element with `adjb`, set the bit at `pos`. -/
def setBitsNested {α : Type} (adjb : α → α → Bool) (pos : α → α → Nat)
    (rows cols : List α) (bs : List Nat) : List Nat :=
  rows.foldl
    (fun bs r =>
      cols.foldl (fun bs c => if adjb r c then setBit bs (pos r c) else bs) bs)
    bs

/-- `connected.0.contains(other_peer_id)`: the stored adjacency set of the
row peer contains the column peer. -/
def connAdj (synced : SyncedRouteInfo) (row_peer col_peer : PeerId) : Bool :=
  ((synced.get_connected_peers row_peer).getD []).contains col_peer

/-- The bitmap label list (`all_peer_ids` in the source): the `conn_map`
keys, with their adjacency versions, that occur in some adjacency set
(`all_dst_peer_ids`) or are reachable in the route table. -/
def conn_bitmap_labels (synced : SyncedRouteInfo) (rt : RouteTable) :
    List (PeerId × Version) :=
  let all_dst_peer_ids : List PeerId :=
    synced.conn_map.flatMap (fun kv => kv.2.1)
  synced.conn_map.filterMap (fun kv =>
    if all_dst_peer_ids.contains kv.1 || rt.peer_reachable kv.1 then
      some (kv.1, kv.2.2)
    else none)

/-- The bitmap-assembly half of
`PeerRouteServiceImpl::update_route_table_and_cached_local_conn_bitmap`:
labels are the `conn_map` keys (with versions) that occur in some adjacency
set or are reachable, the byte buffer is `⌈N²/8⌉` zero bytes, and bit
`row * N + col` is set iff the row peer's stored adjacency set contains the
column peer. -/
def update_cached_local_conn_bitmap (synced : SyncedRouteInfo)
    (rt : RouteTable) : RouteConnBitmap :=
  let all_peer_ids := conn_bitmap_labels synced rt
  let n := all_peer_ids.length
  { peer_ids := all_peer_ids
    bitmap := setBitsNested
      (fun pe ce => connAdj synced pe.2.1 ce.2.1)
      (fun pe ce => pe.1 * n + ce.1)
      all_peer_ids.enum all_peer_ids.enum
      (List.replicate ((n * n + 7) / 8) 0) }

/-! ## Session maintenance (garbage collection sweep) -/

/-- The per-session state consulted by the garbage-collection sweep at the
end of `RouteSessionManager::maintain_sessions`. -/
structure SessionFlags where
  dst_is_initiator : Bool
  we_are_initiator : Bool
  need_sync_initiator_info : Bool
  task_running : Bool
deriving DecidableEq, Repr

/-- The keep condition of the sweep: a session survives iff one of
`dst_is_initiator`, `we_are_initiator`, `need_sync_initiator_info` holds and
its background task is running. -/
def session_kept (s : SessionFlags) : Bool :=
  (s.dst_is_initiator || s.we_are_initiator || s.need_sync_initiator_info) &&
    s.task_running

/-- The garbage-collection sweep of `maintain_sessions`: the stopped peers. -/
def maintain_sessions_gc (sessions : List (PeerId × SessionFlags)) :
    List PeerId :=
  sessions.filterMap (fun kv => if session_kept kv.2 then none else some kv.1)

/-! ## Mathematical path predicate (for the LeastHop claim) -/

/-- `p` is a simple path from `s` to `t` with exactly `n` edges in the
graph: nonempty, starts at `s`, ends at `t`, `n + 1` pairwise-distinct
nodes, consecutive nodes joined by graph edges, and every node after `s` a
graph node. -/
def isSimplePathLen (g : PeerGraph) (s t : PeerId) (n : Nat)
    (p : List PeerId) : Prop :=
  p.head? = some s ∧ pathLast p = t ∧ p.length = n + 1 ∧ p.Nodup ∧
    List.Chain' (fun a b => g.adj a b = true) p ∧ ∀ x ∈ p.tail, x ∈ g.nodes

/-! ## Concrete instances used by counterexamples and witnesses -/

/-- A version-0 descriptor for an id absent from the DB (C1). -/
def c1_info : RoutePeerInfo where
  peer_id := 5
  inst_id := 11
  cost := 0
  ipv4_addr := none
  proxy_cidrs := []
  hostname := some "h5"
  udp_stun_info := 0
  last_update := 77
  version := 0

/-- A fresh descriptor accepted into an empty DB (C1 witness). -/
def c1_wit_info : RoutePeerInfo where
  peer_id := 6
  inst_id := 12
  cost := 0
  ipv4_addr := some 167772161
  proxy_cidrs := ["10.1.0.0/24"]
  hostname := some "h6"
  udp_stun_info := 1
  last_update := 42
  version := 3

/-- Stored descriptor of the neighbor (id 2) at version 5 (C2). -/
def c2_dst_stored : RoutePeerInfo where
  peer_id := 2
  inst_id := 20
  cost := 0
  ipv4_addr := none
  proxy_cidrs := []
  hostname := some "dst"
  udp_stun_info := 0
  last_update := 10
  version := 5

/-- A batch element claiming the local id (1) at version 7 (C2). -/
def c2_my_claim : RoutePeerInfo where
  peer_id := 1
  inst_id := 21
  cost := 0
  ipv4_addr := none
  proxy_cidrs := []
  hostname := some "imp"
  udp_stun_info := 0
  last_update := 11
  version := 7

/-- A batch element claiming the neighbor id (2) at the regressed version 3
(C2). -/
def c2_dst_low : RoutePeerInfo where
  peer_id := 2
  inst_id := 22
  cost := 0
  ipv4_addr := none
  proxy_cidrs := []
  hostname := some "old"
  udp_stun_info := 0
  last_update := 12
  version := 3

/-- The DB holding only the neighbor's descriptor at version 5 (C2). -/
def c2_db : PeerInfoMap := [(2, c2_dst_stored)]

/-- A version-0 (placeholder) descriptor stored under key 3 (C7). -/
def c7_placeholder : RoutePeerInfo where
  peer_id := 0
  inst_id := 0
  cost := 0
  ipv4_addr := none
  proxy_cidrs := []
  hostname := none
  udp_stun_info := 0
  last_update := 50
  version := 0

/-- A DB whose every descriptor has version 0 (C7). -/
def c7_synced : SyncedRouteInfo where
  peer_infos := [(3, c7_placeholder)]
  conn_map := [(3, ([], 0))]

/-- A route table with stale non-empty output tables (C7). -/
def c7_rt : RouteTable where
  peer_infos := []
  next_hop_map := [(9, (9, 0))]
  ipv4_peer_id_map := [(167772162, 9)]
  cidr_peer_id_map := [("10.2.0.0/24", 9)]

/-- Local context for the self-refresh counterexample (C9). -/
def c9_ctx : GlobalCtx where
  inst_id := 7
  ipv4 := none
  proxy_cidrs := []
  vpn_portal_cidr := none
  hostname := "me"
  udp_stun_info := 0

/-- A stored self descriptor matching `c9_ctx` content with `last_update`
in the future of the evaluation time 0 (C9). -/
def c9_self : RoutePeerInfo where
  peer_id := 4
  inst_id := 7
  cost := 0
  ipv4_addr := none
  proxy_cidrs := []
  hostname := some "me"
  udp_stun_info := 0
  last_update := 100
  version := 3

/-- A DB holding the neighbor descriptor (key 2, version 5) and a fresh
reachable descriptor (key 6, version 3) (C5 witness). -/
def c5_synced : SyncedRouteInfo where
  peer_infos := [(2, c2_dst_stored), (6, c1_wit_info)]
  conn_map := []

/-- A route table reaching peers 2 and 6 (C5 witness). -/
def c5_rt : RouteTable where
  peer_infos := []
  next_hop_map := [(2, (2, 1)), (6, (6, 1))]
  ipv4_peer_id_map := []
  cidr_peer_id_map := []

/-- A session towards peer 2 with no high-water entries (C5 witness). -/
def c5_session : SyncRouteSession where
  dst_peer_id := 2
  dst_saved_peer_info_versions := []

/-- Concrete session map for the maintenance sweep (C8 witness): peer 1 is
the elected initiator target (`we_are_initiator`, task running), peer 2
serves no purpose. -/
def c8_sessions : List (PeerId × SessionFlags) :=
  [(1, ⟨false, true, false, true⟩), (2, ⟨false, false, false, true⟩)]

/-- A DB whose adjacency half links peers 1 and 2 (C6 witness). -/
def c6_synced : SyncedRouteInfo where
  peer_infos := []
  conn_map := [(1, ([2], 4)), (2, ([1], 6))]

/-- A three-node line graph 1 → 2 → 3 with unit edge costs (C4 witness). -/
def c4_g : PeerGraph where
  nodes := [1, 2, 3]
  adj := fun a b => (a == 1 && b == 2) || (a == 2 && b == 3)
  cost := fun _ _ => 1

/-- The cached bitmap built from `c6_synced` (C6 witness). -/
def c6_bm : RouteConnBitmap := update_cached_local_conn_bitmap c6_synced c7_rt

/-- A 3-label bitmap whose byte vector is one byte short of `⌈9/8⌉ = 2`
(C10). -/
def c10_bm_bad : RouteConnBitmap where
  peer_ids := [(1, 1), (2, 1), (3, 1)]
  bitmap := [0]

/-- A 2-label bitmap with the full `⌈4/8⌉ = 1` byte (C10 witness). -/
def c10_bm_good : RouteConnBitmap where
  peer_ids := [(1, 1), (2, 1)]
  bitmap := [6]

end EasyTier

namespace EasyTier

/-! # Theorems -/

/-! ## Association-list lemmas -/

@[simp] theorem lookupA_nil {α β : Type} [DecidableEq α] (k : α) :
    lookupA ([] : List (α × β)) k = none := rfl

@[simp] theorem lookupA_cons {α β : Type} [DecidableEq α] (k k' : α) (v : β)
    (m : List (α × β)) :
    lookupA ((k', v) :: m) k = if k' = k then some v else lookupA m k := by
  simp only [lookupA, List.find?]
  by_cases h : k' = k
  · simp [h]
  · simp [h]

theorem lookupA_updateEntryA_self {α β : Type} [DecidableEq α] (k : α)
    (f : β → β) (d : β) (m : List (α × β)) :
    lookupA (updateEntryA k f d m) k =
      some (match lookupA m k with | some v => f v | none => d) := by
  induction m with
  | nil => simp [updateEntryA]
  | cons hd tl ih =>
    obtain ⟨k', v⟩ := hd
    by_cases h : k' = k
    · simp [updateEntryA, h]
    · simp [updateEntryA, h, ih]

theorem lookupA_updateEntryA_ne {α β : Type} [DecidableEq α] (k p : α)
    (f : β → β) (d : β) (m : List (α × β)) (hne : p ≠ k) :
    lookupA (updateEntryA k f d m) p = lookupA m p := by
  induction m with
  | nil => simp [updateEntryA, lookupA_cons, Ne.symm hne]
  | cons hd tl ih =>
    obtain ⟨k', v⟩ := hd
    by_cases h : k' = k
    · subst h
      simp [updateEntryA, lookupA_cons, Ne.symm hne]
    · simp [updateEntryA, h, lookupA_cons, ih]

theorem lookupA_applyOneInfo_spec (now : Nat) (m m' : PeerInfoMap)
    (info : RoutePeerInfo) (hmm : ∀ q, lookupA m q = lookupA m' q)
    (p : PeerId) :
    lookupA (applyOneInfo now m info) p =
      lookupA (specApplyDescriptor now m' info) p := by
  unfold applyOneInfo specApplyDescriptor
  by_cases hp : p = info.peer_id
  · subst hp
    rw [lookupA_updateEntryA_self, ← hmm info.peer_id]
    cases hm : lookupA m info.peer_id with
    | none => simp [hm]
    | some old =>
      by_cases hv : old.version < info.version
      · simp [hm, hv, lookupA_updateEntryA_self, ← hmm info.peer_id]
      · simp [hm, hv, ← hmm info.peer_id]
  · rw [lookupA_updateEntryA_ne _ _ _ _ _ hp, hmm p]
    cases hm : lookupA m' info.peer_id with
    | none => simp [hm, lookupA_cons, Ne.symm hp]
    | some old =>
      by_cases hv : old.version < info.version
      · simp [hm, hv, lookupA_updateEntryA_ne _ _ _ _ _ hp]
      · simp [hm, hv]

theorem lookupA_foldl_applyOneInfo_spec (now : Nat)
    (infos : List RoutePeerInfo) :
    ∀ m m' : PeerInfoMap, (∀ q, lookupA m q = lookupA m' q) →
    ∀ p, lookupA (infos.foldl (applyOneInfo now) m) p =
      lookupA (infos.foldl (specApplyDescriptor now) m') p := by
  induction infos with
  | nil => intro m m' hmm p; simpa using hmm p
  | cons hd tl ih =>
    intro m m' hmm p
    exact ih (applyOneInfo now m hd) (specApplyDescriptor now m' hd)
      (fun q => lookupA_applyOneInfo_spec now m m' hd hmm q) p

/-! ## C1: apply_descriptors insert-or-update rule -/

/-- C1 (counterexample): a batch holding a version-0 descriptor for an id
absent from the DB passes the duplicate-id check, its version is not
strictly greater than the stored version (0 for an absent id), yet the call
changes the stored descriptor for that id — the claimed "otherwise the
stored descriptor is unchanged" fails. -/
theorem C1_counterexample :
    check_duplicate_peer_id 1 2 [] [c1_info] = CheckResult.ok ∧
    ¬ get_peer_info_version_with_default [] c1_info.peer_id <
      c1_info.version ∧
    lookupA (update_peer_infos 1 2 99 [] [c1_info]).2 c1_info.peer_id ≠
      lookupA ([] : PeerInfoMap) c1_info.peer_id := by
  decide

/-- C1 (amended): for every call to `update_peer_infos` that passes the
duplicate-id check, the resulting descriptor map agrees pointwise with the
batch-fold of the spec rule `specApplyDescriptor`: each element replaces the
stored descriptor for its id iff its version is strictly greater than the
stored version, except that an absent id is always inserted (even at
version 0); on acceptance the stored `last_update` becomes the local current
time; otherwise the stored entry is unchanged. -/
theorem C1_update_follows_spec_rule (my_peer_id dst_peer_id : PeerId)
    (now : Nat) (m : PeerInfoMap) (infos : List RoutePeerInfo)
    (hok : check_duplicate_peer_id my_peer_id dst_peer_id m infos =
      CheckResult.ok) (p : PeerId) :
    lookupA (update_peer_infos my_peer_id dst_peer_id now m infos).2 p =
      lookupA (infos.foldl (specApplyDescriptor now) m) p := by
  simp only [update_peer_infos, hok]
  exact lookupA_foldl_applyOneInfo_spec now infos m m (fun q => rfl) p

/-- C1 (witness): the amended rule evaluated on a concrete accepted batch. -/
theorem C1_witness :
    check_duplicate_peer_id 1 2 [] [c1_wit_info] = CheckResult.ok ∧
    lookupA (update_peer_infos 1 2 55 [] [c1_wit_info]).2 6 =
      lookupA ([c1_wit_info].foldl (specApplyDescriptor 55) []) 6 :=
  ⟨by decide, C1_update_follows_spec_rule 1 2 55 [] [c1_wit_info] (by decide) 6⟩

/-! ## C2: batch rejection on a regressed neighbor descriptor -/

theorem check_duplicate_err_of_offending (my_peer_id dst_peer_id : PeerId)
    (m : PeerInfoMap) (infos : List RoutePeerInfo)
    (hdup : ∃ info ∈ infos, info.peer_id = dst_peer_id ∧
      info.version < get_peer_info_version_with_default m dst_peer_id)
    (hnofatal : ∀ info ∈ infos, ¬(info.peer_id = my_peer_id ∧
      get_peer_info_version_with_default m info.peer_id < info.version)) :
    check_duplicate_peer_id my_peer_id dst_peer_id m infos =
      CheckResult.errDuplicatePeerId := by
  induction infos with
  | nil => simp at hdup
  | cons hd tl ih =>
    have hnf := hnofatal hd (List.mem_cons_self hd tl)
    unfold check_duplicate_peer_id
    rw [if_neg hnf]
    by_cases hoff : hd.peer_id = dst_peer_id ∧
        hd.version < get_peer_info_version_with_default m hd.peer_id
    · rw [if_pos hoff]
    · rw [if_neg hoff]
      apply ih
      · obtain ⟨info, hmem, hinfo⟩ := hdup
        rcases List.mem_cons.mp hmem with heq | hmem'
        · subst heq
          exact absurd ⟨hinfo.1, by rw [hinfo.1]; exact hinfo.2⟩ hoff
        · exact ⟨info, hmem', hinfo⟩
      · exact fun info hmem => hnofatal info (List.mem_cons_of_mem hd hmem)

/-- C2 (amended): if the batch contains a descriptor carrying the neighbor's
id with a version strictly below the stored one, and no element of the batch
triggers the fatal own-id check (which would panic instead), then
`update_peer_infos` returns the `DuplicatePeerId` error and leaves the
descriptor map completely unchanged — no element of the batch is applied. -/
theorem C2_duplicate_peer_id_rejects_batch (my_peer_id dst_peer_id : PeerId)
    (now : Nat) (m : PeerInfoMap) (infos : List RoutePeerInfo)
    (hdup : ∃ info ∈ infos, info.peer_id = dst_peer_id ∧
      info.version < get_peer_info_version_with_default m dst_peer_id)
    (hnofatal : ∀ info ∈ infos, ¬(info.peer_id = my_peer_id ∧
      get_peer_info_version_with_default m info.peer_id < info.version)) :
    update_peer_infos my_peer_id dst_peer_id now m infos =
      (CheckResult.errDuplicatePeerId, m) := by
  simp only [update_peer_infos,
    check_duplicate_err_of_offending my_peer_id dst_peer_id m infos hdup
      hnofatal]

/-- C2 (witness): a concrete regressed-neighbor batch is rejected with the
map untouched. -/
theorem C2_witness :
    update_peer_infos 1 2 99 c2_db [c2_dst_low] =
      (CheckResult.errDuplicatePeerId, c2_db) :=
  C2_duplicate_peer_id_rejects_batch 1 2 99 c2_db [c2_dst_low]
    (by decide) (by decide)

/-- C2 (counterexample): when an element claiming the local id with a newer
version precedes the regressed-neighbor element, the source panics
(`my peer id is duplicated`) instead of returning `DuplicatePeerId`, so the
claim "the call returns the DuplicatePeerId error" fails as stated. -/
theorem C2_counterexample :
    (∃ info ∈ [c2_my_claim, c2_dst_low], info.peer_id = 2 ∧
      info.version < get_peer_info_version_with_default c2_db 2) ∧
    (update_peer_infos 1 2 99 c2_db [c2_my_claim, c2_dst_low]).1 ≠
      CheckResult.errDuplicatePeerId := by
  decide

/-! ## C3: per-id version monotonicity -/

theorem stepsUp_refl (m : PeerInfoMap) : StepsUp m m := by
  intro p
  exact ⟨le_refl _, fun old hold => ⟨old, hold, le_refl _, fun _ => rfl⟩⟩

theorem stepsUp_trans {m₁ m₂ m₃ : PeerInfoMap} (h₁ : StepsUp m₁ m₂)
    (h₂ : StepsUp m₂ m₃) : StepsUp m₁ m₃ := by
  intro p
  refine ⟨le_trans (h₁ p).1 (h₂ p).1, fun old hold => ?_⟩
  obtain ⟨mid, hmid, hle, heq⟩ := (h₁ p).2 old hold
  obtain ⟨new, hnew, hle', heq'⟩ := (h₂ p).2 mid hmid
  refine ⟨new, hnew, le_trans hle hle', fun hv => ?_⟩
  have hveq : mid.version = old.version :=
    le_antisymm (hv ▸ hle') hle
  rw [heq' (by rw [hveq, hv]), heq hveq]

theorem lookupA_applyOneInfo_self_none (now : Nat) (m : PeerInfoMap)
    (info : RoutePeerInfo) (hm : lookupA m info.peer_id = none) :
    lookupA (applyOneInfo now m info) info.peer_id =
      some { info with last_update := now } := by
  unfold applyOneInfo
  rw [lookupA_updateEntryA_self, hm]

theorem lookupA_applyOneInfo_self_some (now : Nat) (m : PeerInfoMap)
    (info old : RoutePeerInfo) (hm : lookupA m info.peer_id = some old) :
    lookupA (applyOneInfo now m info) info.peer_id =
      some (if old.version < info.version then { info with last_update := now }
        else old) := by
  unfold applyOneInfo
  rw [lookupA_updateEntryA_self, hm]

theorem lookupA_applyOneInfo_ne (now : Nat) (m : PeerInfoMap)
    (info : RoutePeerInfo) (p : PeerId) (hp : p ≠ info.peer_id) :
    lookupA (applyOneInfo now m info) p = lookupA m p :=
  lookupA_updateEntryA_ne _ _ _ _ _ hp

theorem stepsUp_applyOneInfo (now : Nat) (m : PeerInfoMap)
    (info : RoutePeerInfo) : StepsUp m (applyOneInfo now m info) := by
  intro p
  by_cases hp : p = info.peer_id
  · subst hp
    cases hm : lookupA m info.peer_id with
    | none =>
      have hsp := lookupA_applyOneInfo_self_none now m info hm
      refine ⟨?_, fun old hold => ?_⟩
      · simp [get_peer_info_version_with_default, hm]
      · exact absurd hold (by simp)
    | some old =>
      have hsp := lookupA_applyOneInfo_self_some now m info old hm
      by_cases hv : old.version < info.version
      · rw [if_pos hv] at hsp
        refine ⟨?_, fun o ho => ?_⟩
        · simpa [get_peer_info_version_with_default, hm, hsp] using
            le_of_lt hv
        · injection ho with ho'
          subst ho'
          exact ⟨{ info with last_update := now }, hsp, le_of_lt hv,
            fun h => absurd h.symm (Nat.ne_of_lt hv)⟩
      · rw [if_neg hv] at hsp
        refine ⟨?_, fun o ho => ?_⟩
        · simp [get_peer_info_version_with_default, hm, hsp]
        · injection ho with ho'
          subst ho'
          exact ⟨old, hsp, le_refl _, fun _ => rfl⟩
  · have hne := lookupA_applyOneInfo_ne now m info p hp
    refine ⟨?_, fun old hold => ?_⟩
    · simp [get_peer_info_version_with_default, hne]
    · exact ⟨old, by rw [hne]; exact hold, le_refl _, fun _ => rfl⟩

theorem stepsUp_foldl (now : Nat) (infos : List RoutePeerInfo) :
    ∀ m : PeerInfoMap, StepsUp m (infos.foldl (applyOneInfo now) m) := by
  induction infos with
  | nil => exact fun m => stepsUp_refl m
  | cons hd tl ih =>
    intro m
    exact stepsUp_trans (stepsUp_applyOneInfo now m hd)
      (ih (applyOneInfo now m hd))

theorem stepsUp_update_peer_infos (my_peer_id dst_peer_id : PeerId)
    (now : Nat) (m : PeerInfoMap) (infos : List RoutePeerInfo) :
    StepsUp m (update_peer_infos my_peer_id dst_peer_id now m infos).2 := by
  unfold update_peer_infos
  cases check_duplicate_peer_id my_peer_id dst_peer_id m infos with
  | ok => exact stepsUp_foldl now infos m
  | panicMyIdDuplicated => exact stepsUp_refl m
  | errDuplicatePeerId => exact stepsUp_refl m

/-- C3: across any finite sequence of `update_peer_infos` calls, the stored
version for every peer id is non-decreasing, and a stored descriptor whose
version did not move is never replaced (so no call replaces a stored
descriptor by one of equal or lower version). -/
theorem C3_version_monotone
    (calls : List ((PeerId × PeerId) × Nat × List RoutePeerInfo))
    (m : PeerInfoMap) (p : PeerId) :
    get_peer_info_version_with_default m p ≤
      get_peer_info_version_with_default (runDescriptorCalls calls m) p ∧
    ∀ old, lookupA m p = some old →
      ∃ new, lookupA (runDescriptorCalls calls m) p = some new ∧
        old.version ≤ new.version ∧ (new.version = old.version → new = old) := by
  suffices h : StepsUp m (runDescriptorCalls calls m) from h p
  unfold runDescriptorCalls
  induction calls generalizing m with
  | nil => exact stepsUp_refl m
  | cons hd tl ih =>
    exact stepsUp_trans (stepsUp_update_peer_infos hd.1.1 hd.1.2 hd.2.1 m
      hd.2.2) (ih _)

/-- C3 (witness): version monotonicity evaluated across a concrete call
sequence starting from a DB storing the neighbor descriptor at version 5. -/
theorem C3_witness :
    ∃ new, lookupA (runDescriptorCalls [((1, 2), 99, [c2_dst_low])] c2_db) 2 =
      some new ∧ c2_dst_stored.version ≤ new.version ∧
      (new.version = c2_dst_stored.version → new = c2_dst_stored) :=
  (C3_version_monotone [((1, 2), 99, [c2_dst_low])] c2_db 2).2
    c2_dst_stored (by decide)

/-! ## C8: the session garbage-collection sweep -/

/-- C8 (counterexample): a session whose `dst_is_initiator` flag is set (so
its three flags are not all false) is nevertheless stopped by the sweep when
its background task is not running — the claimed "garbage-collected iff the
three flags are all false" fails. -/
theorem C8_counterexample :
    (3 : PeerId) ∈
      maintain_sessions_gc [(3, ⟨true, false, false, false⟩)] ∧
    (SessionFlags.mk true false false false).dst_is_initiator = true := by
  decide

theorem session_kept_false_iff (s : SessionFlags) :
    session_kept s = false ↔
      ((s.dst_is_initiator = false ∧ s.we_are_initiator = false ∧
        s.need_sync_initiator_info = false) ∨ s.task_running = false) := by
  obtain ⟨a, b, c, d⟩ := s
  cases a <;> cases b <;> cases c <;> cases d <;> simp [session_kept]

theorem keys_unique {β : Type} (l : List (PeerId × β))
    (hnd : (l.map Prod.fst).Nodup) {p : PeerId} {s s' : β}
    (h1 : (p, s) ∈ l) (h2 : (p, s') ∈ l) : s = s' := by
  induction l with
  | nil => cases h1
  | cons hd tl ih =>
    rw [List.map_cons, List.nodup_cons] at hnd
    rcases List.mem_cons.mp h1 with e1 | m1 <;>
      rcases List.mem_cons.mp h2 with e2 | m2
    · exact congrArg Prod.snd (e1.trans e2.symm)
    · exact absurd (List.mem_map.mpr ⟨(p, s'), m2, by rw [← e1]⟩) hnd.1
    · exact absurd (List.mem_map.mpr ⟨(p, s), m1, by rw [← e2]⟩) hnd.1
    · exact ih hnd.2 m1 m2

theorem mem_maintain_sessions_gc (sessions : List (PeerId × SessionFlags))
    (p : PeerId) :
    p ∈ maintain_sessions_gc sessions ↔
      ∃ s, (p, s) ∈ sessions ∧ session_kept s = false := by
  unfold maintain_sessions_gc
  rw [List.mem_filterMap]
  constructor
  · rintro ⟨⟨q, s⟩, hmem, hf⟩
    by_cases hk : session_kept s
    · simp [hk] at hf
    · rw [Bool.not_eq_true] at hk
      simp only [hk, Bool.false_eq_true, if_false, Option.some.injEq] at hf
      exact ⟨s, hf ▸ hmem, hk⟩
  · rintro ⟨s, hmem, hk⟩
    exact ⟨(p, s), hmem, by simp [hk]⟩

/-- C8 (amended): in the garbage-collection sweep of `maintain_sessions`, a
session is stopped iff its `dst_is_initiator`, `we_are_initiator` and
`need_sync_initiator_info` flags are all false **or** its background task is
not running; in particular the currently chosen initiator target — whose
session has `we_are_initiator` set and its task running — is never
stopped. -/
theorem C8_gc_amended (sessions : List (PeerId × SessionFlags))
    (hnd : (sessions.map Prod.fst).Nodup) :
    (∀ p s, (p, s) ∈ sessions →
      (p ∈ maintain_sessions_gc sessions ↔
        ((s.dst_is_initiator = false ∧ s.we_are_initiator = false ∧
          s.need_sync_initiator_info = false) ∨ s.task_running = false))) ∧
    (∀ p s, (p, s) ∈ sessions → s.we_are_initiator = true →
      s.task_running = true → p ∉ maintain_sessions_gc sessions) := by
  have hmain : ∀ p s, (p, s) ∈ sessions →
      (p ∈ maintain_sessions_gc sessions ↔
        ((s.dst_is_initiator = false ∧ s.we_are_initiator = false ∧
          s.need_sync_initiator_info = false) ∨ s.task_running = false)) := by
    intro p s hmem
    rw [mem_maintain_sessions_gc, ← session_kept_false_iff s]
    constructor
    · rintro ⟨s', hmem', hk⟩
      rw [keys_unique sessions hnd hmem hmem']
      exact hk
    · intro hk
      exact ⟨s, hmem, hk⟩
  refine ⟨hmain, fun p s hmem hwe hrun hgc => ?_⟩
  rcases (hmain p s hmem).mp hgc with ⟨_, hwe', _⟩ | hrun'
  · rw [hwe] at hwe'; cases hwe'
  · rw [hrun] at hrun'; cases hrun'

/-- C8 (witness): on a concrete session map the elected initiator target
(peer 1, `we_are_initiator` and task running) is not stopped. -/
theorem C8_witness : (1 : PeerId) ∉ maintain_sessions_gc c8_sessions :=
  (C8_gc_amended c8_sessions (by decide)).2 1 ⟨false, true, false, true⟩
    (by decide) rfl rfl

/-! ## C9: self-descriptor refresh -/

/-- C9 (counterexample): with the stored `last_update` in the future of the
current time (a clock regression), `update_self` bumps the version even
though no content field differs and the record is not older than the 3600 s
refresh interval — the claimed "otherwise the record is byte-identical with
no version increment" fails. -/
theorem C9_counterexample :
    refreshContent c9_self 4 c9_ctx = c9_self ∧
    ¬ c9_self.last_update + 3600 < 0 ∧
    (c9_self.update_self 4 c9_ctx 0).version = c9_self.version + 1 := by
  decide

theorem update_self_eq (self : RoutePeerInfo) (my_peer_id : PeerId)
    (ctx : GlobalCtx) (now : Nat) :
    self.update_self my_peer_id ctx now =
      if refreshContent self my_peer_id ctx ≠ self ∨ refreshStale self now
      then refreshBumped self my_peer_id ctx now
      else self := by
  have hneed :
      (if self.last_update ≤ now then decide (3600 < now - self.last_update)
        else true) = decide (refreshStale self now) := by
    by_cases hle : self.last_update ≤ now
    · rw [if_pos hle]
      apply decide_eq_decide.mpr
      unfold refreshStale
      constructor
      · exact fun h => Or.inl ⟨hle, h⟩
      · rintro (⟨_, h⟩ | h)
        · exact h
        · exact absurd hle (Nat.not_le.mpr h)
    · rw [if_neg hle]
      symm
      apply decide_eq_true
      exact Or.inr (Nat.not_le.mp hle)
  simp only [RoutePeerInfo.update_self]
  rw [hneed]
  split
  · next h =>
    have hcond : refreshContent self my_peer_id ctx ≠ self ∨
        refreshStale self now := by
      rcases h with h | h
      · exact Or.inl h
      · exact Or.inr (of_decide_eq_true h)
    rw [if_pos hcond]
    rfl
  · next h =>
    have hcond : ¬(refreshContent self my_peer_id ctx ≠ self ∨
        refreshStale self now) := by
      intro hc
      apply h
      rcases hc with hc | hc
      · exact Or.inl hc
      · exact Or.inr (decide_eq_true hc)
    rw [if_neg hcond]
    by_contra hne
    exact hcond (Or.inl (fun he => hne he))

/-- C9 (amended): `update_self` rebuilds every content field from the local
context; it increments the version and sets `last_update` to now iff some
content field differs from the stored descriptor, or the stored
`last_update` is older than the 3600 s refresh interval, or the stored
`last_update` lies in the future of now (clock regression, which the source
also treats as stale); otherwise it returns the stored record unchanged;
and `update_my_peer_info` reports true iff the version advanced. -/
theorem C9_refresh_self (self : RoutePeerInfo) (my_peer_id : PeerId)
    (ctx : GlobalCtx) (now : Nat) :
    (refreshContent self my_peer_id ctx ≠ self ∨ refreshStale self now →
      self.update_self my_peer_id ctx now =
        refreshBumped self my_peer_id ctx now) ∧
    (refreshContent self my_peer_id ctx = self ∧ ¬ refreshStale self now →
      self.update_self my_peer_id ctx now = self) ∧
    ((self.update_self my_peer_id ctx now).version ≠ self.version ↔
      (refreshContent self my_peer_id ctx ≠ self ∨ refreshStale self now)) ∧
    (∀ synced : SyncedRouteInfo,
      (synced.update_my_peer_info my_peer_id ctx now).2 = true ↔
        (((lookupA synced.peer_infos my_peer_id).getD
            (RoutePeerInfo.new now)).update_self my_peer_id ctx now).version ≠
          ((lookupA synced.peer_infos my_peer_id).getD
            (RoutePeerInfo.new now)).version) := by
  refine ⟨fun h => ?_, fun h => ?_, ?_, fun synced => ?_⟩
  · rw [update_self_eq, if_pos h]
  · rw [update_self_eq, if_neg (by push_neg; exact ⟨h.1, h.2⟩)]
  · rw [update_self_eq]
    by_cases h : refreshContent self my_peer_id ctx ≠ self ∨
        refreshStale self now
    · rw [if_pos h]
      constructor
      · exact fun _ => h
      · intro _
        exact Nat.succ_ne_self self.version
    · rw [if_neg h]
      simp only [ne_eq, not_true_eq_false, false_iff]
      exact h
  · unfold SyncedRouteInfo.update_my_peer_info
    simp

/-- C9 (witness): a stale stored record (last refresh 4900 s ago) is
rebuilt with the version advanced and `last_update` set to now. -/
theorem C9_witness :
    c9_self.update_self 4 c9_ctx 5000 = refreshBumped c9_self 4 c9_ctx 5000 :=
  (C9_refresh_self c9_self 4 c9_ctx 5000).1 (Or.inr (by decide))

/-! ## C7: rebuild on an all-placeholder DB -/

/-- C7 (counterexample): with every stored descriptor at version 0 and a
stale non-empty next-hop map from before the call,
`build_from_synced_info` returns early and the next-hop map stays
non-empty — the claimed "all three output tables are empty regardless of
their contents before the call" fails. -/
theorem C7_counterexample :
    (∀ kv ∈ c7_synced.peer_infos, kv.2.version = 0) ∧
    (c7_rt.build_from_synced_info 1 c7_synced NextHopPolicy.LeastHop
      (fun _ _ => 1)).next_hop_map ≠ [] := by
  decide

/-- C7 (amended): if every descriptor in the DB has version 0, then
`build_from_synced_info` leaves the rebuilt descriptor snapshot empty and
returns early, keeping the next-hop map, the IPv4 index and the CIDR index
exactly as they were before the call. -/
theorem C7_empty_filter_keeps_tables (rt : RouteTable) (my_peer_id : PeerId)
    (synced : SyncedRouteInfo) (policy : NextHopPolicy)
    (costf : PeerId → PeerId → Int)
    (h0 : ∀ kv ∈ synced.peer_infos, kv.2.version = 0) :
    (rt.build_from_synced_info my_peer_id synced policy costf).peer_infos =
      [] ∧
    (rt.build_from_synced_info my_peer_id synced policy costf).next_hop_map =
      rt.next_hop_map ∧
    (rt.build_from_synced_info my_peer_id synced policy
      costf).ipv4_peer_id_map = rt.ipv4_peer_id_map ∧
    (rt.build_from_synced_info my_peer_id synced policy
      costf).cidr_peer_id_map = rt.cidr_peer_id_map := by
  have hfil : synced.peer_infos.filter
      (fun kv => decide (kv.2.version ≠ 0)) = [] := by
    rw [List.filter_eq_nil_iff]
    intro kv hkv
    simp [h0 kv hkv]
  unfold RouteTable.build_from_synced_info
  rw [hfil]
  simp

/-- C7 (witness): the amended behavior on the concrete stale route table. -/
theorem C7_witness :
    (c7_rt.build_from_synced_info 1 c7_synced NextHopPolicy.LeastHop
      (fun _ _ => 1)).next_hop_map = c7_rt.next_hop_map :=
  (C7_empty_filter_keeps_tables c7_rt 1 c7_synced NextHopPolicy.LeastHop
    (fun _ _ => 1) (by decide)).2.1

/-! ## C10: bitmap decoding bounds -/

theorem byte_idx_lt (i c n : Nat) (hi : i < n) (hc : c < n) :
    (i * n + c) / 8 < (n * n + 7) / 8 := by
  have h1 : i * n + c < n * n := by
    calc i * n + c < i * n + n := by omega
    _ = (i + 1) * n := by ring
    _ ≤ n * n := Nat.mul_le_mul_right n hi
  have h2 : (i * n + c) / 8 ≤ (n * n - 1) / 8 :=
    Nat.div_le_div_right (by omega)
  have h3 : (n * n - 1) / 8 < (n * n + 7) / 8 := by
    have hnn : 1 ≤ n * n := by
      have : 1 ≤ n := by omega
      exact Nat.one_le_iff_ne_zero.mpr (by positivity)
    have heq : n * n + 7 = (n * n - 1) + 8 := by omega
    rw [heq, Nat.add_div_right _ (by norm_num)]
    omega
  omega

theorem collectRow_isSome (bm : RouteConnBitmap) (i : Nat)
    (hlen : (bm.peer_ids.length * bm.peer_ids.length + 7) / 8 ≤
      bm.bitmap.length)
    (hi : i < bm.peer_ids.length)
    (l : List (Nat × (PeerId × Version)))
    (hbound : ∀ e ∈ l, e.1 < bm.peer_ids.length) :
    (collectRow bm i l).isSome := by
  induction l with
  | nil => simp [collectRow]
  | cons hd tl ih =>
    obtain ⟨idx, pid, ver⟩ := hd
    have hidx : idx < bm.peer_ids.length :=
      hbound (idx, pid, ver) (List.mem_cons_self _ _)
    have hbyte : (i * bm.peer_ids.length + idx) / 8 < bm.bitmap.length :=
      lt_of_lt_of_le (byte_idx_lt i idx bm.peer_ids.length hi hidx) hlen
    have hbit : (bm.get_bit? (i * bm.peer_ids.length + idx)).isSome := by
      unfold RouteConnBitmap.get_bit?
      rw [List.get?_eq_getElem?, List.getElem?_eq_getElem hbyte]
      rfl
    obtain ⟨b, hb⟩ := Option.isSome_iff_exists.mp hbit
    have htl := ih (fun e he => hbound e (List.mem_cons_of_mem _ he))
    obtain ⟨rest, hrest⟩ := Option.isSome_iff_exists.mp htl
    unfold collectRow
    rw [hb, hrest]
    rfl

/-- C10: when the byte vector holds at least `⌈N²/8⌉` bytes (`N` = number of
labels), decoding any row `i < N` with `get_connected_peers` performs only
in-bounds byte accesses and cannot panic; and the precondition is necessary:
a received bitmap whose byte vector is one byte short (`c10_bm_bad`, 3
labels but 1 byte) reaches the out-of-bounds access when row 2 is decoded. -/
theorem C10_decode_bounds (bm : RouteConnBitmap) (i : Nat)
    (hlen : (bm.peer_ids.length * bm.peer_ids.length + 7) / 8 ≤
      bm.bitmap.length)
    (hi : i < bm.peer_ids.length) :
    (bm.get_connected_peers? i).isSome ∧
    c10_bm_bad.bitmap.length <
      (c10_bm_bad.peer_ids.length * c10_bm_bad.peer_ids.length + 7) / 8 ∧
    c10_bm_bad.get_connected_peers? 2 = none := by
  refine ⟨?_, by decide, by decide⟩
  unfold RouteConnBitmap.get_connected_peers?
  exact collectRow_isSome bm i hlen hi bm.peer_ids.enum
    (fun e he => by
      have := List.fst_lt_of_mem_enum he
      simpa using this)

/-- C10 (witness): a well-sized 2-label bitmap decodes row 1 without any
out-of-bounds access. -/
theorem C10_witness : (c10_bm_good.get_connected_peers? 1).isSome :=
  (C10_decode_bounds c10_bm_good 1 (by decide) (by decide)).1

/-! ## C5: delta construction (build_route_info) -/

/-- C5: `build_route_info` returns `some l` where `l` holds exactly the
stored descriptors that are not up to date for the session and whose peer is
reachable in the local route table, and returns `none` iff no stored
descriptor qualifies; `up_to_date(p, v)` holds iff `v = 0`, or `p` is the
session's neighbor, or the saved high-water version for `p` is at least `v`
(a missing high-water entry counting as not up to date). -/
theorem C5_build_route_info (synced : SyncedRouteInfo) (rt : RouteTable)
    (session : SyncRouteSession)
    (hwf : ∀ kv ∈ synced.peer_infos, kv.2.version ≠ 0 → kv.1 = kv.2.peer_id) :
    (∀ l, build_route_info synced rt session = some l →
      ∀ info, info ∈ l ↔
        ((info.peer_id, info) ∈ synced.peer_infos ∧
          session.check_saved_peer_info_update_to_date info.peer_id
            info.version = false ∧
          rt.peer_reachable info.peer_id = true)) ∧
    (build_route_info synced rt session = none ↔
      ∀ kv ∈ synced.peer_infos,
        session.check_saved_peer_info_update_to_date kv.2.peer_id
          kv.2.version = true ∨ rt.peer_reachable kv.1 = false) ∧
    (∀ p v, session.check_saved_peer_info_update_to_date p v = true ↔
      (v = 0 ∨ p = session.dst_peer_id ∨
        ∃ w, lookupA session.dst_saved_peer_info_versions p = some w ∧
          v ≤ w)) := by
  have hf : ∀ kv : PeerId × RoutePeerInfo, ∀ info,
      (if session.check_saved_peer_info_update_to_date kv.2.peer_id
          kv.2.version then none
        else if !(rt.peer_reachable kv.1) then none
        else some kv.2) = some info ↔
      (session.check_saved_peer_info_update_to_date kv.2.peer_id
          kv.2.version = false ∧ rt.peer_reachable kv.1 = true ∧
        kv.2 = info) := by
    intro kv info
    by_cases h1 : session.check_saved_peer_info_update_to_date kv.2.peer_id
        kv.2.version
    · simp [h1]
    · by_cases h2 : rt.peer_reachable kv.1
      · simp [h1, h2]
      · simp [h1, h2]
  have hzero : ∀ p, session.check_saved_peer_info_update_to_date p 0 =
      true := by
    intro p
    unfold SyncRouteSession.check_saved_peer_info_update_to_date
    rw [if_pos (Or.inl rfl)]
  refine ⟨?_, ?_, ?_⟩
  · intro l hl info
    have hl' : l = synced.peer_infos.filterMap (fun kv =>
        if session.check_saved_peer_info_update_to_date kv.2.peer_id
            kv.2.version then none
        else if !(rt.peer_reachable kv.1) then none
        else some kv.2) := by
      simp only [build_route_info] at hl
      split at hl
      · cases hl
      · exact (Option.some.injEq _ _ ▸ hl).symm
    subst hl'
    rw [List.mem_filterMap]
    constructor
    · rintro ⟨⟨k, v⟩, hmem, hkv⟩
      obtain ⟨hc, hr, hinfo⟩ := (hf (k, v) info).mp hkv
      simp only at hc hr hinfo
      rw [← hinfo]
      have hv : v.version ≠ 0 := by
        intro h0
        rw [h0, hzero v.peer_id] at hc
        cases hc
      have hkey : k = v.peer_id := hwf (k, v) hmem hv
      subst hkey
      exact ⟨hmem, hc, hr⟩
    · rintro ⟨hmem, hc, hr⟩
      refine ⟨(info.peer_id, info), hmem, ?_⟩
      rw [hf (info.peer_id, info) info]
      exact ⟨hc, hr, rfl⟩
  · simp only [build_route_info]
    split
    · next hemp =>
      rw [List.isEmpty_iff, List.filterMap_eq_nil_iff] at hemp
      constructor
      · intro _ kv hkv
        have := hemp kv hkv
        by_cases h1 : session.check_saved_peer_info_update_to_date
            kv.2.peer_id kv.2.version
        · exact Or.inl h1
        · by_cases h2 : rt.peer_reachable kv.1
          · rw [if_neg h1, if_neg (by simp [h2])] at this
            cases this
          · exact Or.inr (Bool.not_eq_true _ ▸ h2)
      · intro _
        rfl
    · next hemp =>
      rw [List.isEmpty_iff, List.filterMap_eq_nil_iff] at hemp
      constructor
      · intro h
        exact absurd h (by simp)
      · intro hall
        exfalso
        push_neg at hemp
        obtain ⟨kv, hmem, hkv⟩ := hemp
        rcases hall kv hmem with h1 | h2
        · exact hkv (by rw [if_pos h1])
        · exact hkv (by
            by_cases h1 : session.check_saved_peer_info_update_to_date
                kv.2.peer_id kv.2.version
            · rw [if_pos h1]
            · rw [if_neg h1, if_pos (by simp [h2])])
  · intro p v
    unfold SyncRouteSession.check_saved_peer_info_update_to_date
    by_cases h0 : v = 0 ∨ p = session.dst_peer_id
    · rw [if_pos h0]
      simp only [true_iff]
      rcases h0 with h | h
      · exact Or.inl h
      · exact Or.inr (Or.inl h)
    · rw [if_neg h0]
      push_neg at h0
      cases hlook : lookupA session.dst_saved_peer_info_versions p with
      | none =>
        simp only [Option.map_none', Option.getD_none]
        constructor
        · intro h; cases h
        · rintro (h | h | ⟨w, hw, _⟩)
          · exact absurd h h0.1
          · exact absurd h h0.2
          · cases hw
      | some w =>
        simp only [Option.map_some', Option.getD_some, decide_eq_true_eq]
        constructor
        · intro h
          exact Or.inr (Or.inr ⟨w, rfl, h⟩)
        · rintro (h | h | ⟨w', hw', hvw⟩)
          · exact absurd h h0.1
          · exact absurd h h0.2
          · injection hw' with hww
            rw [hww]
            exact hvw

/-- C5 (witness): the concrete DB/session/route-table evaluation — the
descriptor of peer 6 (version 3, reachable, no high-water entry) is exactly
what the delta holds. -/
theorem C5_witness :
    c1_wit_info ∈ [c1_wit_info] ↔
      ((c1_wit_info.peer_id, c1_wit_info) ∈ c5_synced.peer_infos ∧
        c5_session.check_saved_peer_info_update_to_date c1_wit_info.peer_id
          c1_wit_info.version = false ∧
        c5_rt.peer_reachable c1_wit_info.peer_id = true) :=
  (C5_build_route_info c5_synced c5_rt c5_session (by decide)).1
    [c1_wit_info] (by decide) c1_wit_info

/-! ## C6: bitmap encode/decode round-trip -/

@[simp] theorem setBit_length (bs : List Nat) (idx : Nat) :
    (setBit bs idx).length = bs.length := by
  unfold setBit
  exact List.length_set bs _ _

theorem foldl_setBit_length {α : Type} (f : α → Bool) (pos : α → Nat)
    (l : List α) (bs : List Nat) :
    (l.foldl (fun bs a => if f a then setBit bs (pos a) else bs) bs).length =
      bs.length := by
  induction l generalizing bs with
  | nil => rfl
  | cons hd tl ih =>
    simp only [List.foldl_cons]
    by_cases h : f hd
    · rw [if_pos h, ih, setBit_length]
    · rw [if_neg h, ih]

theorem testBit_one (m : Nat) : Nat.testBit 1 m = decide (m = 0) := by
  by_cases h : m = 0
  · subst h
    rfl
  · have hne : ¬ (Nat.testBit 1 m = true) := by
      rw [Nat.testBit_one_eq_true_iff_self_eq_zero]
      exact h
    rw [Bool.not_eq_true] at hne
    simp [h, hne]

theorem testBit_one_shift (r b : Nat) :
    (1 <<< r).testBit b = decide (b = r) := by
  rw [Nat.testBit_shiftLeft, testBit_one]
  by_cases h : b = r
  · subst h
    simp
  · have : ¬(r ≤ b) ∨ b - r ≠ 0 := by omega
    rcases this with h' | h'
    · simp [h, h']
    · simp [h, h']

theorem testBit_decide_form (m n : Nat) :
    decide ((m >>> n) &&& 1 = 1) = m.testBit n := by
  rw [Nat.testBit_to_div_mod, Nat.and_one_is_mod, Nat.shiftRight_eq_div_pow]

theorem bitAt_replicate_zero (k j : Nat) :
    bitAt (List.replicate k 0) j = false := by
  unfold bitAt
  rcases Nat.lt_or_ge (j / 8) k with h | h
  · rw [List.getD_eq_getElem?_getD, List.getElem?_replicate_of_lt h]
    simp [Nat.testBit]
  · rw [List.getD_eq_getElem?_getD, List.getElem?_eq_none (by simpa using h)]
    simp [Nat.testBit]

theorem bitAt_setBit (bs : List Nat) (i j : Nat) (hi : i / 8 < bs.length) :
    bitAt (setBit bs i) j = (decide (j = i) || bitAt bs j) := by
  unfold bitAt setBit
  by_cases hbyte : j / 8 = i / 8
  · rw [hbyte, List.getD_eq_getElem?_getD, List.getElem?_set_self hi]
    simp only [Option.getD_some]
    rw [Nat.testBit_or, testBit_one_shift]
    have hdec : decide (j % 8 = i % 8) = decide (j = i) := by
      by_cases h : j = i
      · simp [h]
      · have hmod : j % 8 ≠ i % 8 := by omega
        simp [h, hmod]
    rw [hdec, Bool.or_comm]
  · have hne : j ≠ i := by omega
    rw [List.getD_eq_getElem?_getD, List.getElem?_set_ne
      (by omega : i / 8 ≠ j / 8), ← List.getD_eq_getElem?_getD]
    simp [hne]

theorem bitAt_foldl {α : Type} (f : α → Bool) (pos : α → Nat) (l : List α)
    (bs : List Nat) (hb : ∀ a ∈ l, f a → pos a / 8 < bs.length) (j : Nat) :
    bitAt (l.foldl (fun bs a => if f a then setBit bs (pos a) else bs) bs) j =
      (bitAt bs j || l.any (fun a => f a && decide (pos a = j))) := by
  induction l generalizing bs with
  | nil => simp
  | cons hd tl ih =>
    simp only [List.foldl_cons, List.any_cons]
    by_cases h : f hd
    · rw [if_pos h, ih _ (fun a ha hf => by
        rw [setBit_length]
        exact hb a (List.mem_cons_of_mem hd ha) hf)]
      rw [bitAt_setBit bs (pos hd) j (hb hd (List.mem_cons_self hd tl) h)]
      simp only [h, Bool.true_and]
      have hsymm : decide (j = pos hd) = decide (pos hd = j) := by
        simp [eq_comm]
      rw [hsymm, Bool.or_comm (decide (pos hd = j)) (bitAt bs j),
        Bool.or_assoc]
    · rw [if_neg h]
      rw [ih _ (fun a ha hf => hb a (List.mem_cons_of_mem hd ha) hf)]
      simp [h]

theorem setBitsNested_length {α : Type} (adjb : α → α → Bool)
    (pos : α → α → Nat) (rows cols : List α) (bs : List Nat) :
    (setBitsNested adjb pos rows cols bs).length = bs.length := by
  unfold setBitsNested
  induction rows generalizing bs with
  | nil => rfl
  | cons hd tl ih =>
    simp only [List.foldl_cons]
    rw [ih, foldl_setBit_length]

theorem bitAt_setBitsNested {α : Type} (adjb : α → α → Bool)
    (pos : α → α → Nat) (rows cols : List α) (bs : List Nat)
    (hb : ∀ r ∈ rows, ∀ c ∈ cols, adjb r c → pos r c / 8 < bs.length)
    (j : Nat) :
    bitAt (setBitsNested adjb pos rows cols bs) j =
      (bitAt bs j ||
        rows.any (fun r => cols.any
          (fun c => adjb r c && decide (pos r c = j)))) := by
  unfold setBitsNested
  induction rows generalizing bs with
  | nil => simp
  | cons hd tl ih =>
    simp only [List.foldl_cons, List.any_cons]
    rw [ih _ (fun r hr c hc ha => by
      rw [foldl_setBit_length]
      exact hb r (List.mem_cons_of_mem hd hr) c hc ha)]
    rw [bitAt_foldl (adjb hd) (pos hd) cols bs
      (fun c hc ha => hb hd (List.mem_cons_self hd tl) c hc ha) j]
    rw [Bool.or_assoc]

theorem grid_index_inj (n r c r' c' : Nat) (hc : c < n) (hc' : c' < n)
    (h : r * n + c = r' * n + c') : r = r' ∧ c = c' := by
  have hn : 0 < n := by omega
  have e1 : (r * n + c) / n = r := by
    rw [Nat.mul_comm r n, Nat.mul_add_div hn, Nat.div_eq_of_lt hc,
      Nat.add_zero]
  have e2 : (r' * n + c') / n = r' := by
    rw [Nat.mul_comm r' n, Nat.mul_add_div hn, Nat.div_eq_of_lt hc',
      Nat.add_zero]
  have hr : r = r' := by rw [← e1, ← e2, h]
  refine ⟨hr, ?_⟩
  rw [hr] at h
  exact Nat.add_left_cancel h

theorem get_bit?_eq_bitAt (bm : RouteConnBitmap) (idx : Nat)
    (h : idx / 8 < bm.bitmap.length) :
    bm.get_bit? idx = some (bitAt bm.bitmap idx) := by
  unfold RouteConnBitmap.get_bit? bitAt
  rw [List.get?_eq_getElem?, List.getElem?_eq_getElem h]
  simp only [Option.map_some']
  rw [testBit_decide_form]
  rw [List.getD_eq_getElem?_getD, List.getElem?_eq_getElem h]
  rfl

theorem collectRow_characterize (bm : RouteConnBitmap) (i : Nat)
    (l : List (Nat × (PeerId × Version)))
    (hsome : ∀ e ∈ l,
      ∃ b, bm.get_bit? (i * bm.peer_ids.length + e.1) = some b) :
    ∃ out, collectRow bm i l = some out ∧
      ∀ p, p ∈ out ↔ ∃ e ∈ l, e.2.1 = p ∧
        bm.get_bit? (i * bm.peer_ids.length + e.1) = some true := by
  induction l with
  | nil => exact ⟨[], rfl, by simp⟩
  | cons hd tl ih =>
    obtain ⟨idx, pid, ver⟩ := hd
    obtain ⟨b, hb⟩ := hsome (idx, pid, ver) (List.mem_cons_self _ _)
    obtain ⟨out, hout, hmem⟩ :=
      ih (fun e he => hsome e (List.mem_cons_of_mem _ he))
    refine ⟨if b then pid :: out else out, ?_, ?_⟩
    · unfold collectRow
      rw [hb, hout]
    · intro p
      cases b with
      | false =>
        rw [if_neg (by simp)]
        rw [hmem p]
        constructor
        · rintro ⟨e, he, hep, hbit⟩
          exact ⟨e, List.mem_cons_of_mem _ he, hep, hbit⟩
        · rintro ⟨e, he, hep, hbit⟩
          rcases List.mem_cons.mp he with rfl | he'
          · rw [hb] at hbit
            cases hbit
          · exact ⟨e, he', hep, hbit⟩
      | true =>
        rw [if_pos rfl]
        rw [List.mem_cons, hmem p]
        constructor
        · rintro (rfl | ⟨e, he, hep, hbit⟩)
          · exact ⟨(idx, p, ver), List.mem_cons_self _ _, rfl, hb⟩
          · exact ⟨e, List.mem_cons_of_mem _ he, hep, hbit⟩
        · rintro ⟨e, he, hep, hbit⟩
          rcases List.mem_cons.mp he with rfl | he'
          · exact Or.inl hep.symm
          · exact Or.inr ⟨e, he', hep, hbit⟩

/-- C6: let `bm` be the cached local `RouteConnBitmap` built from the DB and
the route table, with `n` labels.  Then (a) the encoded bitmap is exactly
`⌈n²/8⌉` bytes long; (b) the bit for `(row, col)` sits at linear bit index
`row·n + col` (little-endian within each byte, which is what `get_bit`
reads) and equals whether the row label peer's stored adjacency set contains
the column label peer; (c) decoding row `i` with `get_connected_peers`
yields exactly the stored adjacency set of label peer `i` intersected with
the label set. -/
theorem C6_bitmap_roundtrip (synced : SyncedRouteInfo) (rt : RouteTable)
    (bm : RouteConnBitmap)
    (hbm : bm = update_cached_local_conn_bitmap synced rt) (n : Nat)
    (hn : n = bm.peer_ids.length) :
    bm.bitmap.length = (n * n + 7) / 8 ∧
    (∀ r c, r < n → c < n →
      bm.get_bit? (r * n + c) =
        some (connAdj synced (bm.peer_ids.getD r (0, 0)).1
          (bm.peer_ids.getD c (0, 0)).1)) ∧
    (∀ i, i < n → ∃ out, bm.get_connected_peers? i = some out ∧
      ∀ p, p ∈ out ↔ (p ∈ bm.peer_ids.map Prod.fst ∧
        connAdj synced (bm.peer_ids.getD i (0, 0)).1 p = true)) := by
  subst hn
  set L := bm.peer_ids with hL
  have hB : bm.bitmap = setBitsNested
      (fun pe ce => connAdj synced pe.2.1 ce.2.1)
      (fun pe ce => pe.1 * L.length + ce.1)
      L.enum L.enum
      (List.replicate ((L.length * L.length + 7) / 8) 0) := by
    rw [hL, hbm]
    rfl
  have hlen : bm.bitmap.length = (L.length * L.length + 7) / 8 := by
    rw [hB, setBitsNested_length, List.length_replicate]
  have hbit : ∀ j, bitAt bm.bitmap j =
      L.enum.any (fun pe => L.enum.any (fun ce =>
        connAdj synced pe.2.1 ce.2.1 &&
          decide (pe.1 * L.length + ce.1 = j))) := by
    intro j
    rw [hB, bitAt_setBitsNested _ _ _ _ _
      (fun r hr c hc _ => by
        rw [List.length_replicate]
        exact byte_idx_lt r.1 c.1 L.length (List.fst_lt_of_mem_enum hr)
          (List.fst_lt_of_mem_enum hc)) j,
      bitAt_replicate_zero]
    simp only [Bool.false_or]
  have hgetDmem : ∀ r, r < L.length → (r, L.getD r (0, 0)) ∈ L.enum := by
    intro r hr
    rw [List.mk_mem_enum_iff_getElem?, List.getElem?_eq_getElem hr,
      List.getD_eq_getElem?_getD, List.getElem?_eq_getElem hr]
    rfl
  have hbit_rc : ∀ r c, r < L.length → c < L.length →
      bitAt bm.bitmap (r * L.length + c) =
        connAdj synced (L.getD r (0, 0)).1 (L.getD c (0, 0)).1 := by
    intro r c hr hc
    rw [hbit]
    rw [Bool.eq_iff_iff]
    rw [List.any_eq_true]
    constructor
    · rintro ⟨pe, hpe, hpe'⟩
      rw [List.any_eq_true] at hpe'
      obtain ⟨ce, hce, hce'⟩ := hpe'
      rw [Bool.and_eq_true, decide_eq_true_eq] at hce'
      obtain ⟨hadj, hpos⟩ := hce'
      have hpelt := List.fst_lt_of_mem_enum hpe
      have hcelt := List.fst_lt_of_mem_enum hce
      obtain ⟨hpr, hcc⟩ := grid_index_inj L.length pe.1 ce.1 r c
        hcelt hc hpos
      have hpe2 : L.getD r (0, 0) = pe.2 := by
        have := List.mem_enum_iff_getElem?.mp hpe
        rw [hpr] at this
        rw [List.getD_eq_getElem?_getD, this]
        rfl
      have hce2 : L.getD c (0, 0) = ce.2 := by
        have := List.mem_enum_iff_getElem?.mp hce
        rw [hcc] at this
        rw [List.getD_eq_getElem?_getD, this]
        rfl
      rw [hpe2, hce2]
      exact hadj
    · intro hadj
      refine ⟨(r, L.getD r (0, 0)), hgetDmem r hr, ?_⟩
      rw [List.any_eq_true]
      refine ⟨(c, L.getD c (0, 0)), hgetDmem c hc, ?_⟩
      rw [Bool.and_eq_true, decide_eq_true_eq]
      exact ⟨hadj, rfl⟩
  refine ⟨hlen, ?_, ?_⟩
  · intro r c hr hc
    have hidx : (r * L.length + c) / 8 < bm.bitmap.length := by
      rw [hlen]
      exact byte_idx_lt r c L.length hr hc
    rw [get_bit?_eq_bitAt bm _ hidx, hbit_rc r c hr hc]
  · intro i hi
    have hsome : ∀ e ∈ L.enum,
        ∃ b, bm.get_bit? (i * L.length + e.1) = some b := by
      intro e he
      have helt := List.fst_lt_of_mem_enum he
      have hidx : (i * L.length + e.1) / 8 < bm.bitmap.length := by
        rw [hlen]
        exact byte_idx_lt i e.1 L.length hi helt
      exact ⟨_, get_bit?_eq_bitAt bm _ hidx⟩
    obtain ⟨out, hout, hmem⟩ := collectRow_characterize bm i L.enum hsome
    refine ⟨out, hout, fun p => ?_⟩
    rw [hmem p]
    constructor
    · rintro ⟨e, he, hep, hbitp⟩
      have helt := List.fst_lt_of_mem_enum he
      have hidx : (i * L.length + e.1) / 8 < bm.bitmap.length := by
        rw [hlen]
        exact byte_idx_lt i e.1 L.length hi helt
      rw [get_bit?_eq_bitAt bm _ hidx] at hbitp
      injection hbitp with hbitp
      rw [hbit_rc i e.1 hi helt] at hbitp
      have he2 : L.getD e.1 (0, 0) = e.2 := by
        have := List.mem_enum_iff_getElem?.mp he
        rw [List.getD_eq_getElem?_getD, this]
        rfl
      constructor
      · rw [List.mem_map]
        exact ⟨e.2, List.snd_mem_of_mem_enum he, hep⟩
      · rw [← hep, ← he2]
        exact hbitp
    · rintro ⟨hpmem, hadj⟩
      rw [List.mem_map] at hpmem
      obtain ⟨x, hx, hxp⟩ := hpmem
      obtain ⟨ci, hci⟩ := List.mem_iff_getElem?.mp hx
      have hcilt : ci < L.length := by
        by_contra hge
        rw [List.getElem?_eq_none (by omega)] at hci
        cases hci
      refine ⟨(ci, x), List.mem_enum_iff_getElem?.mpr hci, hxp, ?_⟩
      have hidx : (i * L.length + ci) / 8 < bm.bitmap.length := by
        rw [hlen]
        exact byte_idx_lt i ci L.length hi hcilt
      rw [get_bit?_eq_bitAt bm _ hidx, hbit_rc i ci hi hcilt]
      have hx2 : L.getD ci (0, 0) = x := by
        rw [List.getD_eq_getElem?_getD, hci]
        rfl
      rw [hx2, hxp]
      rw [hadj]

/-- C6 (witness): on the concrete two-peer DB the built bitmap decodes row 0
to exactly the stored adjacency of peer 1 intersected with the labels. -/
theorem C6_witness :
    ∃ out, c6_bm.get_connected_peers? 0 = some out ∧
      ∀ p, p ∈ out ↔ (p ∈ c6_bm.peer_ids.map Prod.fst ∧
        connAdj c6_synced (c6_bm.peer_ids.getD 0 (0, 0)).1 p = true) :=
  (C6_bitmap_roundtrip c6_synced c7_rt c6_bm rfl _ rfl).2.2 0 (by decide)

/-! ## C4: the LeastHop next-hop computation -/

theorem head?_append_single (q : List PeerId) (b : PeerId) (hq : q ≠ []) :
    (q ++ [b]).head? = q.head? := by
  cases q with
  | nil => exact absurd rfl hq
  | cons a q' => rfl

theorem tail_append_single (q : List PeerId) (b : PeerId) (hq : q ≠ []) :
    (q ++ [b]).tail = q.tail ++ [b] := by
  cases q with
  | nil => exact absurd rfl hq
  | cons a q' => rfl

theorem pathLast_concat (q : List PeerId) (b : PeerId) :
    pathLast (q ++ [b]) = b :=
  List.getLastD_concat _ _ _

theorem getLast?_eq_some_pathLast (q : List PeerId) (hq : q ≠ []) :
    q.getLast? = some (pathLast q) := by
  unfold pathLast
  rw [List.getLastD_eq_getLast?]
  cases h : q.getLast? with
  | none =>
    rw [List.getLast?_eq_none_iff] at h
    exact absurd h hq
  | some a => rfl

theorem contains_eq_false_iff (q : List PeerId) (b : PeerId) :
    q.contains b = false ↔ b ∉ q := by
  constructor
  · intro h hmem
    have : List.elem b q = true := List.elem_iff.mpr hmem
    rw [show q.contains b = List.elem b q from rfl] at h
    rw [h] at this
    cases this
  · intro h
    cases hc : q.contains b with
    | false => rfl
    | true =>
      rw [show q.contains b = List.elem b q from rfl] at hc
      exact absurd (List.elem_iff.mp hc) h

theorem mem_simplePathsLen (g : PeerGraph) (s : PeerId) :
    ∀ (n : Nat) (p : List PeerId),
      p ∈ simplePathsLen g s n ↔
        (p.head? = some s ∧ p.length = n + 1 ∧ p.Nodup ∧
          List.Chain' (fun a b => g.adj a b = true) p ∧
          ∀ x ∈ p.tail, x ∈ g.nodes) := by
  intro n
  induction n with
  | zero =>
    intro p
    constructor
    · intro hp
      simp only [simplePathsLen, List.mem_singleton] at hp
      subst hp
      refine ⟨rfl, rfl, List.nodup_singleton s, List.chain'_singleton s, ?_⟩
      intro x hx
      cases hx
    · rintro ⟨hhead, hlen, _, _, _⟩
      rcases p with _ | ⟨a, rest⟩
      · cases hhead
      · rcases rest with _ | ⟨b, rest'⟩
        · injection hhead with ha
          subst ha
          simp [simplePathsLen]
        · simp at hlen
  | succ n ih =>
    intro p
    simp only [simplePathsLen, List.mem_flatMap, List.mem_map,
      List.mem_filter]
    constructor
    · rintro ⟨q, hq, b, ⟨hbnode, hbpred⟩, rfl⟩
      rw [Bool.and_eq_true] at hbpred
      obtain ⟨hadj, hnotin⟩ := hbpred
      have hnotin' : b ∉ q := by
        rw [Bool.not_eq_true'] at hnotin
        exact (contains_eq_false_iff q b).mp hnotin
      obtain ⟨hhead, hlen, hnd, hch, htail⟩ := (ih q).mp hq
      have hq0 : q ≠ [] := by
        intro h
        rw [h] at hhead
        cases hhead
      refine ⟨?_, ?_, ?_, ?_, ?_⟩
      · rw [head?_append_single q b hq0]
        exact hhead
      · rw [List.length_append, hlen]
        rfl
      · rw [List.nodup_append]
        exact ⟨hnd, List.nodup_singleton b,
          List.disjoint_singleton.mpr hnotin'⟩
      · rw [List.chain'_append]
        refine ⟨hch, List.chain'_singleton b, ?_⟩
        intro x hx y hy
        rw [getLast?_eq_some_pathLast q hq0] at hx
        rw [Option.mem_def, Option.some.injEq] at hx
        rw [List.head?_cons, Option.mem_def, Option.some.injEq] at hy
        rw [← hx, ← hy]
        exact hadj
      · intro x hx
        rw [tail_append_single q b hq0] at hx
        rcases List.mem_append.mp hx with h | h
        · exact htail x h
        · rw [List.mem_singleton] at h
          subst h
          exact hbnode
    · rintro ⟨hhead, hlen, hnd, hch, htail⟩
      have hp0 : p ≠ [] := by
        intro h
        rw [h] at hlen
        cases hlen
      have hsplit : p.dropLast ++ [p.getLast hp0] = p :=
        List.dropLast_concat_getLast hp0
      have hqlen : p.dropLast.length = n + 1 := by
        rw [List.length_dropLast, hlen]
        omega
      have hq0 : p.dropLast ≠ [] := by
        intro h
        rw [h] at hqlen
        cases hqlen
      have htailp : p.tail = p.dropLast.tail ++ [p.getLast hp0] := by
        conv_lhs => rw [← hsplit]
        exact tail_append_single _ _ hq0
      refine ⟨p.dropLast, (ih p.dropLast).mpr ⟨?_, hqlen, ?_, ?_, ?_⟩,
        p.getLast hp0, ⟨?_, ?_⟩, hsplit⟩
      · have hh : (p.dropLast ++ [p.getLast hp0]).head? = some s := by
          rw [hsplit]
          exact hhead
        rw [head?_append_single _ _ hq0] at hh
        exact hh
      · have := hnd
        conv at this => rw [← hsplit]
        exact (List.nodup_append.mp this).1
      · have := hch
        conv at this => rw [← hsplit]
        exact (List.chain'_append.mp this).1
      · intro x hx
        apply htail
        rw [htailp]
        exact List.mem_append_left _ hx
      · apply htail
        rw [htailp]
        exact List.mem_append_right _ (List.mem_singleton.mpr rfl)
      · rw [Bool.and_eq_true]
        constructor
        · have := hch
          conv at this => rw [← hsplit]
          have hlink := (List.chain'_append.mp this).2.2
          exact hlink (pathLast p.dropLast)
            (by rw [getLast?_eq_some_pathLast _ hq0]; rfl)
            (p.getLast hp0) rfl
        · rw [Bool.not_eq_true']
          rw [contains_eq_false_iff]
          have := hnd
          conv at this => rw [← hsplit]
          exact List.disjoint_singleton.mp (List.nodup_append.mp this).2.2

theorem mem_pathsTo (g : PeerGraph) (s t : PeerId) (n : Nat)
    (p : List PeerId) :
    p ∈ pathsTo g s t n ↔ isSimplePathLen g s t n p := by
  unfold pathsTo isSimplePathLen
  rw [List.mem_filter, mem_simplePathsLen, decide_eq_true_eq]
  constructor
  · rintro ⟨⟨h1, h2, h3, h4, h5⟩, h6⟩
    exact ⟨h1, h6, h2, h3, h4, h5⟩
  · rintro ⟨h1, h6, h2, h3, h4, h5⟩
    exact ⟨⟨h1, h2, h3, h4, h5⟩, h6⟩

theorem leastUpTo_none (P : Nat → Bool) :
    ∀ k, leastUpTo P k = none → ∀ m, m < k → P m = false := by
  intro k
  induction k with
  | zero => intro _ m hm; omega
  | succ k ih =>
    intro h m hm
    unfold leastUpTo at h
    cases hk : leastUpTo P k with
    | some j => rw [hk] at h; cases h
    | none =>
      rw [hk] at h
      by_cases hPk : P k
      · rw [if_pos hPk] at h; cases h
      · rcases Nat.lt_succ_iff_lt_or_eq.mp hm with hm' | hm'
        · exact ih hk m hm'
        · subst hm'
          exact Bool.not_eq_true _ ▸ hPk

theorem leastUpTo_some (P : Nat → Bool) :
    ∀ k n, leastUpTo P k = some n →
      P n = true ∧ ∀ m, m < n → P m = false := by
  intro k
  induction k with
  | zero => intro n h; cases h
  | succ k ih =>
    intro n h
    unfold leastUpTo at h
    cases hk : leastUpTo P k with
    | some j =>
      rw [hk] at h
      injection h with h
      rw [← h]
      exact ih j hk
    | none =>
      rw [hk] at h
      by_cases hPk : P k
      · rw [if_pos hPk] at h
        injection h with h
        rw [← h]
        exact ⟨hPk, leastUpTo_none P k hk⟩
      · rw [if_neg hPk] at h
        cases h

theorem leastUpTo_isSome (P : Nat → Bool) :
    ∀ k n, n < k → P n = true → (leastUpTo P k).isSome := by
  intro k
  induction k with
  | zero => intro n hn; omega
  | succ k ih =>
    intro n hn hP
    unfold leastUpTo
    cases hk : leastUpTo P k with
    | some j => rfl
    | none =>
      rcases Nat.lt_succ_iff_lt_or_eq.mp hn with hn' | hn'
      · have := ih n hn' hP
        rw [hk] at this
        cases this
      · subst hn'
        rw [if_pos hP]
        rfl

theorem hopDist_spec (g : PeerGraph) (s t : PeerId) (H : Nat)
    (h : hopDist g s t = some H) :
    pathsTo g s t H ≠ [] ∧ ∀ m, m < H → pathsTo g s t m = [] := by
  obtain ⟨hP, hmin⟩ := leastUpTo_some _ _ _ h
  constructor
  · intro hnil
    rw [hnil] at hP
    cases hP
  · intro m hm
    have hthis := hmin m hm
    cases hie : (pathsTo g s t m).isEmpty with
    | true => exact List.isEmpty_iff.mp hie
    | false =>
      rw [hie] at hthis
      cases hthis

theorem path_subset_nodes (g : PeerGraph) (s t : PeerId) (n : Nat)
    (p : List PeerId) (hp : isSimplePathLen g s t n p) (hs : s ∈ g.nodes) :
    ∀ x ∈ p, x ∈ g.nodes := by
  obtain ⟨hhead, _, _, _, _, htail⟩ := hp
  intro x hx
  rcases p with _ | ⟨a, rest⟩
  · cases hx
  · injection hhead with ha
    subst ha
    rcases List.mem_cons.mp hx with rfl | hx'
    · exact hs
    · exact htail x hx'

theorem hopDist_isSome (g : PeerGraph) (s t : PeerId) (hs : s ∈ g.nodes)
    (n : Nat) (p : List PeerId) (hp : isSimplePathLen g s t n p) :
    (hopDist g s t).isSome := by
  have hmem : p ∈ pathsTo g s t n := (mem_pathsTo g s t n p).mpr hp
  have hlenp : p.length = n + 1 := hp.2.2.1
  have hnd : p.Nodup := hp.2.2.2.1
  have hsub : p ⊆ g.nodes := path_subset_nodes g s t n p hp hs
  have hle : p.length ≤ g.nodes.length :=
    (List.subperm_of_subset hnd hsub).length_le
  have hn : n < g.nodes.length + 1 := by omega
  unfold hopDist
  apply leastUpTo_isSome _ _ n hn
  have : pathsTo g s t n ≠ [] := by
    intro hnil
    rw [hnil] at hmem
    cases hmem
  simpa [List.isEmpty_iff] using this

theorem chooseMinLast_acc (g : PeerGraph) (l : List (List PeerId)) :
    ∀ (mp : List PeerId),
      ∃ c p, l.foldl
        (fun acc q =>
          match acc with
          | none => some (pathCost g q, q)
          | some (mc, mq) =>
            if pathCost g q ≤ mc then some (pathCost g q, q)
            else some (mc, mq))
        (some (pathCost g mp, mp)) = some (c, p) ∧ c = pathCost g p ∧
      ((p = mp ∧ ∀ q ∈ l, pathCost g mp < pathCost g q) ∨
        (∃ l₁ l₂, l = l₁ ++ p :: l₂ ∧ pathCost g p ≤ pathCost g mp ∧
          (∀ q ∈ l, pathCost g p ≤ pathCost g q) ∧
          ∀ q ∈ l₂, pathCost g p < pathCost g q)) := by
  induction l with
  | nil =>
    intro mp
    exact ⟨pathCost g mp, mp, rfl, rfl, Or.inl ⟨rfl, by simp⟩⟩
  | cons hd tl ih =>
    intro mp
    simp only [List.foldl_cons]
    by_cases hle : pathCost g hd ≤ pathCost g mp
    · rw [if_pos hle]
      obtain ⟨c, p, hfold, hc, hcases⟩ := ih hd
      refine ⟨c, p, hfold, hc, Or.inr ?_⟩
      rcases hcases with ⟨rfl, hall⟩ | ⟨l₁, l₂, hsplit, hple, hall, hlast⟩
      · exact ⟨[], tl, rfl, hle, by
          intro q hq
          rcases List.mem_cons.mp hq with rfl | hq'
          · exact le_refl _
          · exact le_of_lt (hall q hq'), hall⟩
      · refine ⟨hd :: l₁, l₂, by rw [hsplit]; rfl, le_trans hple hle, ?_,
          hlast⟩
        intro q hq
        rcases List.mem_cons.mp hq with rfl | hq'
        · exact hple
        · exact hall q hq'
    · rw [if_neg hle]
      obtain ⟨c, p, hfold, hc, hcases⟩ := ih mp
      refine ⟨c, p, hfold, hc, ?_⟩
      rcases hcases with ⟨rfl, hall⟩ | ⟨l₁, l₂, hsplit, hple, hall, hlast⟩
      · refine Or.inl ⟨rfl, ?_⟩
        intro q hq
        rcases List.mem_cons.mp hq with rfl | hq'
        · exact lt_of_not_le hle
        · exact hall q hq'
      · refine Or.inr ⟨hd :: l₁, l₂, by rw [hsplit]; rfl, hple, ?_, hlast⟩
        intro q hq
        rcases List.mem_cons.mp hq with rfl | hq'
        · exact le_trans hple (le_of_lt (lt_of_not_le hle))
        · exact hall q hq'

theorem chooseMinLast_spec (g : PeerGraph) (paths : List (List PeerId))
    (hne : paths ≠ []) :
    ∃ p l₁ l₂, chooseMinLast g paths = some (pathCost g p, p) ∧
      paths = l₁ ++ p :: l₂ ∧
      (∀ q ∈ paths, pathCost g p ≤ pathCost g q) ∧
      ∀ q ∈ l₂, pathCost g p < pathCost g q := by
  rcases paths with _ | ⟨hd, tl⟩
  · exact absurd rfl hne
  · unfold chooseMinLast
    simp only [List.foldl_cons]
    obtain ⟨c, p, hfold, hc, hcases⟩ := chooseMinLast_acc g tl hd
    rcases hcases with ⟨rfl, hall⟩ | ⟨l₁, l₂, hsplit, hple, hall, hlast⟩
    · refine ⟨p, [], tl, by rw [hfold, hc], rfl, ?_, hall⟩
      intro q hq
      rcases List.mem_cons.mp hq with rfl | hq'
      · exact le_refl _
      · exact le_of_lt (hall q hq')
    · refine ⟨p, hd :: l₁, l₂, by rw [hfold, hc], by rw [hsplit]; rfl, ?_,
        hlast⟩
      intro q hq
      rcases List.mem_cons.mp hq with rfl | hq'
      · exact hple
      · exact hall q hq'

theorem least_hop_entry_key (g : PeerGraph) (s u : PeerId)
    (v : PeerId × (PeerId × Int)) (h : least_hop_entry g s u = some v) :
    v.1 = u := by
  unfold least_hop_entry at h
  cases hd : hopDist g s u with
  | none => rw [hd] at h; cases h
  | some hops =>
    rw [hd] at h
    cases hops with
    | zero => cases h
    | succ k =>
      have h' : (match chooseMinLast g (pathsTo g s u (k + 1)) with
        | none => none
        | some (_, min_path) =>
          some (u, (min_path.getD 1 0, ((k + 1 : Nat) : Int)))) = some v := h
      cases hcm : chooseMinLast g (pathsTo g s u (k + 1)) with
      | none => rw [hcm] at h'; cases h'
      | some cp =>
        obtain ⟨c, mp⟩ := cp
        rw [hcm] at h'
        injection h' with h'
        rw [← h']

theorem lookupA_filterMap_not_mem {β : Type}
    (f : PeerId → Option (PeerId × β))
    (hf : ∀ u v, f u = some v → v.1 = u) (l : List PeerId) (t : PeerId)
    (ht : t ∉ l) : lookupA (l.filterMap f) t = none := by
  induction l with
  | nil => rfl
  | cons hd tl ih =>
    have hne : hd ≠ t := fun h => ht (h ▸ List.mem_cons_self hd tl)
    have htl : t ∉ tl := fun h => ht (List.mem_cons_of_mem hd h)
    simp only [List.filterMap_cons]
    cases hfhd : f hd with
    | none => exact ih htl
    | some v =>
      obtain ⟨k, b⟩ := v
      have hk : k = hd := by simpa using hf hd (k, b) hfhd
      rw [lookupA_cons, if_neg (by rw [hk]; exact hne)]
      exact ih htl

theorem lookupA_filterMap_nodes {β : Type}
    (f : PeerId → Option (PeerId × β))
    (hf : ∀ u v, f u = some v → v.1 = u) (l : List PeerId) (hnd : l.Nodup)
    (t : PeerId) (ht : t ∈ l) :
    lookupA (l.filterMap f) t = (f t).map (fun v => v.2) := by
  induction l with
  | nil => cases ht
  | cons hd tl ih =>
    rw [List.nodup_cons] at hnd
    simp only [List.filterMap_cons]
    rcases List.mem_cons.mp ht with rfl | htl'
    · cases hfhd : f t with
      | none =>
        rw [lookupA_filterMap_not_mem f hf tl t hnd.1]
        simp [hfhd]
      | some v =>
        obtain ⟨k, b⟩ := v
        have hk : k = t := by simpa using hf t (k, b) hfhd
        rw [lookupA_cons, if_pos hk]
        simp [hfhd]
    · have hne : hd ≠ t := fun h => hnd.1 (h ▸ htl')
      cases hfhd : f hd with
      | none => exact ih hnd.2 htl'
      | some v =>
        obtain ⟨k, b⟩ := v
        have hk : k = hd := by simpa using hf hd (k, b) hfhd
        rw [lookupA_cons, if_neg (by rw [hk]; exact hne)]
        exact ih hnd.2 htl'

/-- C4: under the LeastHop policy, for every destination `t ≠ s` reachable
from the local node `s` by a simple path in the built peer graph, the
generated next-hop map has an entry for `t` whose cost is the minimum hop
count `H` (the unweighted shortest-path distance: some simple path has
exactly `H` edges and no simple path has fewer) and whose next hop is the
second node of the path chosen among the enumerator's simple paths of
length exactly `H` — a path of minimal weighted cost under the cost
calculator, ties resolved in favour of the last such path scanned. -/
theorem C4_least_hop_route (g : PeerGraph) (s t : PeerId)
    (hs : s ∈ g.nodes) (hnd : g.nodes.Nodup) (hts : t ≠ s)
    (hreach : ∃ n p, isSimplePathLen g s t n p) :
    ∃ H min_path l₁ l₂,
      hopDist g s t = some H ∧ 0 < H ∧
      (∀ q, q ∈ pathsTo g s t H ↔ isSimplePathLen g s t H q) ∧
      (∃ p, isSimplePathLen g s t H p) ∧
      (∀ n p, isSimplePathLen g s t n p → H ≤ n) ∧
      lookupA (gen_next_hop_map_with_least_hop g s) t =
        some (min_path.getD 1 0, (H : Int)) ∧
      isSimplePathLen g s t H min_path ∧
      pathsTo g s t H = l₁ ++ min_path :: l₂ ∧
      (∀ q, isSimplePathLen g s t H q →
        pathCost g min_path ≤ pathCost g q) ∧
      (∀ q ∈ l₂, pathCost g min_path < pathCost g q) := by
  obtain ⟨n₀, p₀, hp₀⟩ := hreach
  obtain ⟨H, hH⟩ := Option.isSome_iff_exists.mp
    (hopDist_isSome g s t hs n₀ p₀ hp₀)
  obtain ⟨hneH, hminH⟩ := hopDist_spec g s t H hH
  have hmin : ∀ n p, isSimplePathLen g s t n p → H ≤ n := by
    intro n p hp
    by_contra hlt
    push_neg at hlt
    have hmem : p ∈ pathsTo g s t n := (mem_pathsTo g s t n p).mpr hp
    rw [hminH n hlt] at hmem
    cases hmem
  obtain ⟨q₀, hq₀⟩ := List.exists_mem_of_ne_nil _ hneH
  have hq₀' := (mem_pathsTo g s t H q₀).mp hq₀
  have hHpos : 0 < H := by
    rcases Nat.eq_zero_or_pos H with h0 | h
    · subst h0
      obtain ⟨hh, hl, hlen, _, _, _⟩ := hq₀'
      rcases q₀ with _ | ⟨a, rest⟩
      · cases hh
      · rcases rest with _ | ⟨b, rest'⟩
        · injection hh with ha
          subst ha
          exact absurd hl.symm hts
        · simp at hlen
    · exact h
  have htn : t ∈ g.nodes := by
    obtain ⟨hh, hl, hlen, hndq, hch, htl⟩ := hq₀'
    have hq0 : q₀ ≠ [] := by
      intro h
      rw [h] at hlen
      cases hlen
    have hsplit := List.dropLast_concat_getLast hq0
    have hdl : q₀.dropLast ≠ [] := by
      have hdlen : q₀.dropLast.length = H := by
        rw [List.length_dropLast, hlen]
        omega
      intro h
      rw [h] at hdlen
      simp at hdlen
      omega
    have htq : q₀.tail = q₀.dropLast.tail ++ [q₀.getLast hq0] := by
      conv_lhs => rw [← hsplit]
      exact tail_append_single _ _ hdl
    have hlast_t : q₀.getLast hq0 = t := by
      have hlt := hl
      conv at hlt => rw [← hsplit]
      rw [pathLast_concat] at hlt
      exact hlt
    have hlastmem : q₀.getLast hq0 ∈ q₀.tail := by
      rw [htq]
      exact List.mem_append_right _ (List.mem_singleton.mpr rfl)
    rw [← hlast_t]
    exact htl _ hlastmem
  obtain ⟨min_path, l₁, l₂, hcm, hsplitp, hmincost, hlastmin⟩ :=
    chooseMinLast_spec g (pathsTo g s t H) hneH
  have hminmem : min_path ∈ pathsTo g s t H := by
    rw [hsplitp]
    exact List.mem_append_right _ (List.mem_cons_self _ _)
  have hentry : least_hop_entry g s t =
      some (t, (min_path.getD 1 0, (H : Int))) := by
    obtain ⟨k, rfl⟩ : ∃ k, H = k + 1 := ⟨H - 1, by omega⟩
    unfold least_hop_entry
    rw [hH]
    simp only [hcm]
  have hlook : lookupA (gen_next_hop_map_with_least_hop g s) t =
      (least_hop_entry g s t).map (fun v => v.2) :=
    lookupA_filterMap_nodes (least_hop_entry g s)
      (least_hop_entry_key g s) g.nodes hnd t htn
  refine ⟨H, min_path, l₁, l₂, hH, hHpos,
    fun q => mem_pathsTo g s t H q, ⟨q₀, hq₀'⟩, hmin, ?_,
    (mem_pathsTo g s t H min_path).mp hminmem, hsplitp, ?_, hlastmin⟩
  · rw [hlook, hentry]
    rfl
  · intro q hq
    exact hmincost q ((mem_pathsTo g s t H q).mpr hq)

/-- C4 (witness): on the line graph 1 → 2 → 3 the destination 3 gets hop
count 2 and next hop 2 with all the stated minimality properties. -/
theorem C4_witness :
    ∃ H min_path l₁ l₂,
      hopDist c4_g 1 3 = some H ∧ 0 < H ∧
      (∀ q, q ∈ pathsTo c4_g 1 3 H ↔ isSimplePathLen c4_g 1 3 H q) ∧
      (∃ p, isSimplePathLen c4_g 1 3 H p) ∧
      (∀ n p, isSimplePathLen c4_g 1 3 n p → H ≤ n) ∧
      lookupA (gen_next_hop_map_with_least_hop c4_g 1) 3 =
        some (min_path.getD 1 0, (H : Int)) ∧
      isSimplePathLen c4_g 1 3 H min_path ∧
      pathsTo c4_g 1 3 H = l₁ ++ min_path :: l₂ ∧
      (∀ q, isSimplePathLen c4_g 1 3 H q →
        pathCost c4_g min_path ≤ pathCost c4_g q) ∧
      (∀ q ∈ l₂, pathCost c4_g min_path < pathCost c4_g q) :=
  C4_least_hop_route c4_g 1 3 (by decide) (by decide) (by decide)
    ⟨2, [1, 2, 3], rfl, rfl, rfl, by decide, by
      rw [List.chain'_cons, List.chain'_cons]
      exact ⟨by decide, by decide, List.chain'_singleton 3⟩, by decide⟩

end EasyTier
